import Mathlib

/-!
Verification of the photo-album catalog server.

This file gives a shallow embedding of the server's core data model and
operations — the album Fragment Engine (`src/server/src/engine.rs`), the
album/file/permission handlers (`src/server/src/album/mod.rs`,
`src/server/src/album/share.rs`, `src/server/src/file.rs`), the deletion
journal (`src/server/src/delete.rs`) and the startup sequence
(`src/server/src/main.rs`) — and proves properties of the embedded
definitions.

Modelling conventions:
* `BTreeMap<K, V>` values (and the per-album slice of the sled `fragments`
  tree, whose keys are `album_id '.' u64_be` and therefore order fragments
  of one album by their numeric id) are modelled as association lists
  sorted strictly by key; `alInsert`, `alErase` and `alLookup` mirror
  `insert`, `remove` and `get`.
* Rust `String` keys inside ordered maps are modelled by their character
  lists, ordered lexicographically, which matches the byte-lexicographic
  `Ord` instance Rust uses on UTF-8 strings.
* `u64`/`usize` become `Nat`, `i64`/`i32` become `Int`.  None of the
  modelled code paths can overflow these widths, so no modular reduction
  is applied.
* A chrono-tz time zone is modelled as its name together with the
  day-truncation function `ts ↦ tz.timestamp(ts,0).date().and_hms(0,0,0).timestamp()`
  that `Engine::modify_section` applies; chrono's `PartialEq` on `Tz`
  compares the zone variant, i.e. the name.
* sled transaction bodies that `abort` are modelled as `Except`-valued
  functions; the enclosing `transaction` call returns the original trees
  unchanged on an error, which models sled discarding tentative writes.
* Fragment values are stored in the model as structured `Fragment` data
  rather than their JSON byte serializations; the serde instances in
  `engine.rs` are a bijection between the two (round-tripping is checked
  by the `ser_de_section`/`ser_de_top` tests in the source).
* Calls to `Utc::now()` become an explicit `now : Int` argument.
-/

/-! ## Sorted association lists (the `BTreeMap` model) -/

/-- Insert into an association list sorted strictly by key, replacing an
equal key in place, as `BTreeMap::insert` does. -/
def alInsert {k v : Type} [LinearOrder k] (key : k) (val : v) : List (k × v) → List (k × v)
  | [] => [(key, val)]
  | (k', v') :: rest =>
    if key < k' then (key, val) :: (k', v') :: rest
    else if k' < key then (k', v') :: alInsert key val rest
    else (key, val) :: rest

/-- Remove a key from an association list sorted strictly by key, as
`BTreeMap::remove` does (no-op when the key is absent). -/
def alErase {k v : Type} [LinearOrder k] (key : k) : List (k × v) → List (k × v)
  | [] => []
  | (k', v') :: rest =>
    if key < k' then (k', v') :: rest
    else if k' < key then (k', v') :: alErase key rest
    else rest

/-- Look a key up in an association list sorted strictly by key, as
`BTreeMap::get` does. -/
def alLookup {k v : Type} [LinearOrder k] (key : k) : List (k × v) → Option v
  | [] => none
  | (k', v') :: rest =>
    if key < k' then none
    else if k' < key then alLookup key rest
    else some v'

/-- Strict sortedness by key: the well-formedness invariant every
`BTreeMap` (and the per-album fragment keyspace) satisfies. -/
def alSorted {k v : Type} [LinearOrder k] (m : List (k × v)) : Prop :=
  m.Pairwise (fun a b => a.1 < b.1)

instance {k v : Type} [LinearOrder k] (m : List (k × v)) : Decidable (alSorted m) :=
  inferInstanceAs (Decidable (m.Pairwise _))

/-! ## Wire model (`wire/src/lib.rs`, `common.rs`) -/

/-- Role ∈ {Owner, Editor, Reader} (`wire/src/lib.rs`). -/
inductive Role
  | owner
  | editor
  | reader
deriving DecidableEq, Repr

/-- Role::can_write (`wire/src/lib.rs`). -/
def Role.can_write : Role → Bool
  | .owner => true
  | .editor => true
  | .reader => false

/-- Role::is_owner (`wire/src/lib.rs`). -/
def Role.is_owner : Role → Bool
  | .owner => true
  | _ => false

/-- FileMetadata record (`wire/src/lib.rs`). -/
structure FileMetadata where
  last_modified : Int
  name : String
  mime : String
deriving DecidableEq, Repr

/-- File record stored in the `files` tree (`common.rs`). -/
structure File where
  owner_id : String
  width : Int
  height : Int
  metadata : FileMetadata
deriving DecidableEq, Repr

/-- A chrono-tz time zone: its IANA name (the identity chrono compares)
together with the local-midnight truncation
`ts ↦ tz.timestamp(ts, 0).date().and_hms(0, 0, 0).timestamp()`
that `Engine::modify_section` computes with it. -/
structure Tz where
  name : String
  midnight : Int → Int

/-- AlbumSettings record (`wire/src/lib.rs`). -/
structure AlbumSettings where
  name : String
  time_zone : Tz

/-- Album record stored in the `albums` tree (`wire/src/lib.rs`). -/
structure Album where
  description : AlbumSettings
  fragment_head : Nat
  length : Nat
  last_update : Int
  date_range : Option (Int × Int)

/-! ## Fragments (`engine.rs`) -/

/-- A Section key `FileKey { time_stamp, file_id }`, with the derived
lexicographic `Ord` used by the `BTreeMap`; the id is compared as its
character list, matching Rust's byte order on UTF-8 strings. -/
abbrev FKey := Lex (Int × List Char)

instance : DecidableEq FKey := inferInstanceAs (DecidableEq (Int × List Char))

/-- Build a `FileKey` from a timestamp and a file id string. -/
def mkKey (ts : Int) (fid : String) : FKey := toLex (ts, fid.data)

/-- Timestamp component of a `FileKey`. -/
def FKey.ts (k : FKey) : Int := (ofLex k).1

/-- File-id component of a `FileKey`, as a string again. -/
def FKey.fid (k : FKey) : String := String.mk (ofLex k).2

/-- FileDetails { width, height } (`engine.rs`). -/
structure FileDetails where
  width : Int
  height : Int
deriving DecidableEq, Repr

/-- SectionDetails { fragment_id, length } (`engine.rs`). -/
structure SectionDetails where
  fragment_id : Nat
  length : Nat
deriving DecidableEq, Repr

/-- A Section fragment: the ordered map from file keys to dimensions. -/
abbrev SectionL := List (FKey × FileDetails)

/-- A Top fragment: the ordered map from day timestamps to section
details. -/
abbrev TopL := List (Int × SectionDetails)

/-- A fragment value stored in the `fragments` tree under one album's
prefix. -/
inductive Fragment
  | sec (s : SectionL)
  | top (t : TopL)
deriving DecidableEq

/-- The slice of the `fragments` tree belonging to one album: fragment id
(the trailing big-endian `u64` of the key) to fragment value.  The
big-endian encoding makes sled's byte order agree with numeric order. -/
abbrev FragTree := List (Nat × Fragment)

/-! ## The Fragment Engine (`engine.rs`) -/

/-- The in-memory engine state: the album being mutated, the per-album
fragment tree, the staging cache `day_ts → (orig_fragment_id?, Section)`
and the deserialized Top. -/
structure Engine where
  album : Album
  fragments : FragTree
  cache : List (Int × (Option Nat × SectionL))
  top : TopL

/-- Engine::empty — write an empty Top at fragment id 0 (album
creation). -/
def Engine.emptyTree : FragTree := [(0, .top [])]

/-- Engine::new — read and deserialize the Top at `album.fragment_head`.
The source unwraps the read and the deserialization (a missing or
non-Top fragment is a panic); the model returns `none` there. -/
def Engine.new (album : Album) (fragments : FragTree) : Option Engine :=
  match alLookup album.fragment_head fragments with
  | some (.top t) => some ⟨album, fragments, [], t⟩
  | _ => none

/-- Fetch a Section fragment from a fragment tree. -/
def secAt (frags : FragTree) (id : Nat) : Option SectionL :=
  match alLookup id frags with
  | some (.sec s) => some s
  | _ => none

/-- Engine::read — fetch and deserialize a Section fragment.  The source
unwraps (panics) when the fragment is absent or not a Section; the model
returns `none` there. -/
def Engine.readSec (e : Engine) (id : Nat) : Option SectionL :=
  secAt e.fragments id

/-- Engine::modify_section — truncate `ts` to its day in the album's time
zone, then apply `f` to the cached section for that day, pulling the
section from the fragment tree (recording its id) or creating a fresh one
on first touch. -/
def Engine.modifySection (e : Engine) (ts : Int) (f : SectionL → SectionL) : Option Engine :=
  let day := e.album.description.time_zone.midnight ts
  match alLookup day e.cache with
  | some (orig, s) => some { e with cache := alInsert day (orig, f s) e.cache }
  | none =>
    match alLookup day e.top with
    | some details =>
      match e.readSec details.fragment_id with
      | some s => some { e with cache := alInsert day (some details.fragment_id, f s) e.cache }
      | none => none
    | none => some { e with cache := alInsert day (none, f []) e.cache }

/-- Engine::add — stage insertion of a file under the key
`(file.metadata.last_modified, file_id)`. -/
def Engine.add (e : Engine) (file_id : String) (file : File) : Option Engine :=
  e.modifySection file.metadata.last_modified
    (alInsert (mkKey file.metadata.last_modified file_id) ⟨file.width, file.height⟩)

/-- Engine::remove — stage removal of the key
`(file.metadata.last_modified, file_id)`. -/
def Engine.remove (e : Engine) (file_id : String) (file : File) : Option Engine :=
  e.modifySection file.metadata.last_modified
    (alErase (mkKey file.metadata.last_modified file_id))

/-- Accumulator of Engine::commit's loop over the cache: the running
fragment head, the Top being updated, the fragment tree and the album
length. -/
structure CommitState where
  head : Nat
  top : TopL
  frags : FragTree
  len : Nat

/-- One iteration of Engine::commit's cache loop: delete the original
fragment if the section existed, then either write the section under the
next fragment id and upsert the Top entry (recovering the previous
entry's length, 0 if none), or drop the Top entry when the section is
empty; finally adjust the running length.  The source's
`fragments.remove(id)?.unwrap()` panics when the fragment is absent;
under the invariants assumed by the theorems below it is always
present. -/
def commitStep (st : CommitState) (entry : Int × (Option Nat × SectionL)) : CommitState :=
  let (ts, (maybeId, sect)) := entry
  let frags :=
    match maybeId with
    | some id => alErase id st.frags
    | none => st.frags
  let length := sect.length
  if length > 0 then
    let head := st.head + 1
    let frags := alInsert head (.sec sect) frags
    let prev := ((alLookup ts st.top).map (·.length)).getD 0
    let top := alInsert ts ⟨head, length⟩ st.top
    ⟨head, top, frags, st.len + length - prev⟩
  else
    let prev := ((alLookup ts st.top).map (·.length)).getD 0
    let top := alErase ts st.top
    ⟨st.head, top, frags, st.len + length - prev⟩

/-- Engine::commit — if the cache is empty return without writes;
otherwise delete the current Top, run the cache loop in day order, write
the new Top at the next fragment id, stamp `last_update` and recompute
`date_range` from the new Top's least and greatest keys.  Returns the
updated album and fragment tree. -/
def Engine.commit (e : Engine) (now : Int) : Album × FragTree :=
  if e.cache = [] then (e.album, e.fragments)
  else
    let st0 : CommitState :=
      ⟨e.album.fragment_head, e.top, alErase e.album.fragment_head e.fragments, e.album.length⟩
    let st := e.cache.foldl commitStep st0
    let head := st.head + 1
    let frags := alInsert head (.top st.top) st.frags
    let dr : Option (Int × Int) :=
      match st.top.head?, st.top.getLast? with
      | some mn, some mx => some (mn.1, mx.1)
      | _, _ => none
    ({ e.album with
        fragment_head := head
        length := st.len
        last_update := now
        date_range := dr },
      frags)

/-- Modelled from the spec: `list_file_ids(engine) -> Vec<file_id>` reads
all file ids across all sections (in map order).  The function is called
by `album/mod.rs` and `album/share.rs` but its body is not among the
provided sources. -/
def Engine.list_file_ids (e : Engine) : Option (List String) := do
  let sections ← e.top.mapM (fun entry => e.readSec entry.2.fragment_id)
  pure ((sections.map (fun s => s.map (fun p => p.1.fid))).flatten)

/-- Modelled from the spec: `clear_all(engine)` stages removal of every
section, i.e. caches each Top entry's day as an emptied section whose
original fragment id is recorded for deletion.  The function is called by
`album/mod.rs` but its body is not among the provided sources. -/
def Engine.clear_all (e : Engine) : Engine :=
  { e with cache := e.top.foldl (fun c entry => alInsert entry.1 (some entry.2.fragment_id, []) c) e.cache }

/-! ## Unsorted association-list trees (string-keyed sled trees)

The `users`, `emails`, `files`, `file_names`, `albums`, `user_to_album`,
`album_to_user` and `inclusions` trees have string keys whose order never
matters to the claims below; they are modelled as plain association
lists with `sInsert` overwriting an existing key, as `Tree::insert`
does. -/

/-- Tree::get on an unsorted association list. -/
def sLookup {k v : Type} [DecidableEq k] (key : k) : List (k × v) → Option v
  | [] => none
  | (k', v') :: rest => if key = k' then some v' else sLookup key rest

/-- Tree::insert on an unsorted association list (overwrite or append). -/
def sInsert {k v : Type} [DecidableEq k] (key : k) (val : v) : List (k × v) → List (k × v)
  | [] => [(key, val)]
  | (k', v') :: rest => if key = k' then (key, val) :: rest else (k', v') :: sInsert key val rest

/-- Tree::remove on an unsorted association list. -/
def sErase {k v : Type} [DecidableEq k] (key : k) : List (k × v) → List (k × v)
  | [] => []
  | (k', v') :: rest => if key = k' then rest else (k', v') :: sErase key rest

/-- Byte-prefix test used to model `scan_prefix`, computed on character
lists because the claims need it to evaluate. -/
def strHasPre (pre s : String) : Bool := pre.data.isPrefixOf s.data

/-- Split a character list at the first `'.'`. -/
def splitDotChars : List Char → Option (List Char × List Char)
  | [] => none
  | c :: rest =>
    if c = '.' then some ([], rest)
    else (splitDotChars rest).map (fun p => (c :: p.1, p.2))

/-- String::split_once('.') — split at the first `'.'`, if any. -/
def splitOnceDot (s : String) : Option (String × String) :=
  (splitDotChars s.data).map (fun p => (String.mk p.1, String.mk p.2))

/-- Error taxonomy (`error.rs`), restricted to the user-visible variants
the modelled handlers can abort with. -/
inductive ApiError
  | unauthorized
  | notFound
  | badRequest
  | emailTaken
  | fileExists
deriving DecidableEq, Repr

/-- User record stored in the `users` tree (`common.rs`). -/
structure UserRec where
  email : String
  password : String
deriving DecidableEq, Repr

/-! ## UpdateAlbum (`album/mod.rs`, `update`)

The transaction body of the PATCH handler, from the point where the album
record has been read (session and write-permission checks already
passed).  When the submitted `time_zone` differs from the stored one the
handler opens an Engine on the album, reads all file ids, stages
`clear_all`, re-`add`s every file id still present in `files`, and
commits; afterwards — in both branches — it overwrites
`album.description` with the submitted settings and stores the album.
Note that the engine still holds the album with its ORIGINAL description
while the re-`add`s run; `description` is only replaced after the
commit. -/

def updateAlbum (files : List (String × File)) (album : Album) (frags : FragTree)
    (json : AlbumSettings) (now : Int) : Option (Album × FragTree) :=
  if album.description.time_zone.name ≠ json.time_zone.name then do
    let e ← Engine.new album frags
    let ids ← e.list_file_ids
    let e := e.clear_all
    let e ← ids.foldlM (fun e fid =>
      match sLookup fid files with
      | some file => e.add fid file
      | none => some e) e
    let (a, f) := e.commit now
    pure ({ a with description := json }, f)
  else
    some ({ album with description := json }, frags)

/-! ## Add/remove-then-commit (`album/mod.rs`, `add_remove`; `engine.rs`)

The engine phase of `add_remove` for a single file: open the engine,
stage the mutation, commit.  These composites are what the add/remove
laws quantify over. -/

/-- Open an engine on the album, stage `add(file_id, file)`, commit. -/
def addCommit (album : Album) (frags : FragTree) (file_id : String) (file : File)
    (now : Int) : Option (Album × FragTree) := do
  let e ← Engine.new album frags
  let e ← e.add file_id file
  pure (e.commit now)

/-- Open an engine on the album, stage `remove(file_id, file)`, commit. -/
def removeCommit (album : Album) (frags : FragTree) (file_id : String) (file : File)
    (now : Int) : Option (Album × FragTree) := do
  let e ← Engine.new album frags
  let e ← e.remove file_id file
  pure (e.commit now)

/-! ## ShareAlbum (`album/share.rs`) -/

/-- test_user_can_write — look the caller's role up in `user_to_album`
and require `can_write`. -/
def test_user_can_write (u2a : List (String × Role)) (user_id album_id : String) :
    Except ApiError Unit :=
  match sLookup (user_id ++ "." ++ album_id) u2a with
  | none => .error .unauthorized
  | some r => if r.can_write then .ok () else .error .unauthorized

/-- The `share` transaction body: require the album to exist and the
caller to be able to write, resolve the target email, tentatively write
both ACL edges, then abort with BadRequest when the overwritten previous
role was Owner. -/
def shareBody (albums : List (String × Album)) (emails : List (String × String))
    (u2a : List (String × Role)) (a2u : List (String × Unit))
    (user_id album_id email : String) (role : Role) :
    Except ApiError (List (String × Role) × List (String × Unit)) :=
  match sLookup album_id albums with
  | none => .error .unauthorized
  | some _ =>
    match test_user_can_write u2a user_id album_id with
    | .error e => .error e
    | .ok _ =>
      match sLookup email emails with
      | none => .error .notFound
      | some target =>
        let prev := sLookup (target ++ "." ++ album_id) u2a
        let u2a' := sInsert (target ++ "." ++ album_id) role u2a
        let a2u' := sInsert (album_id ++ "." ++ target) () a2u
        match prev with
        | some Role.owner => .error .badRequest
        | _ => .ok (u2a', a2u')

/-- The `share` handler: the requested Owner role is rejected before the
transaction even starts; a transaction body error leaves both ACL trees
as they were (sled discards the tentative writes of an aborted
transaction).  Returns the ACL trees after the call and the error, if
any. -/
def share (albums : List (String × Album)) (emails : List (String × String))
    (u2a : List (String × Role)) (a2u : List (String × Unit))
    (user_id album_id email : String) (role : Role) :
    (List (String × Role) × List (String × Unit)) × Option ApiError :=
  if role = Role.owner then ((u2a, a2u), some .unauthorized)
  else
    match shareBody albums emails u2a a2u user_id album_id email role with
    | .ok trees => (trees, none)
    | .error e => ((u2a, a2u), some e)

/-! ## UploadFile (`file.rs`, `upload`)

The catalog transaction of the upload handler (image derivation and disk
writes happen before it and are rolled back on its failure): require the
owner to exist, tentatively insert the file record, then insert the
`(owner '.' name)` index entry — aborting with FileExists when that
entry was already present. -/

/-- The catalog transaction body of `upload`. -/
def uploadBody (users : List (String × UserRec)) (files : List (String × File))
    (file_names : List (String × String)) (owner_id file_id : String) (file : File) :
    Except ApiError (List (String × File) × List (String × String)) :=
  match sLookup owner_id users with
  | none => .error .unauthorized
  | some _ =>
    let files' := sInsert file_id file files
    let key := owner_id ++ "." ++ file.metadata.name
    match sLookup key file_names with
    | some _ => .error .fileExists
    | none => .ok (files', sInsert key file_id file_names)

/-- The upload catalog transaction with sled's abort semantics: on an
error both trees are left unchanged. -/
def upload (users : List (String × UserRec)) (files : List (String × File))
    (file_names : List (String × String)) (owner_id file_id : String) (file : File) :
    (List (String × File) × List (String × String)) × Option ApiError :=
  match uploadBody users files file_names owner_id file_id file with
  | .ok trees => (trees, none)
  | .error e => ((files, file_names), some e)

/-! ## ServeFragment (`album/mod.rs`, `serve`) -/

/-- Result of the serve handler: raw fragment bytes, or the album record
with the caller's role attached. -/
inductive ServeOut
  | fragment (f : Fragment)
  | metadata (a : Album) (r : Role)

/-- The serve handler after route/key parsing: `test_logged_in` (modelled
from the spec: a session key authenticates iff it is present in
`sessions`; the helper's body is not among the provided sources, but
every inlined use in `file.rs` is `sessions.get(key)?.ok_or(Unauthorized)`),
then the `user_to_album` membership lookup — Unauthorized when absent —
and only then the fragment lookup (NotFound when absent) or the album
metadata lookup.  `fragment_id = none` is the "metadata" route.  The
flat `fragments` tree is keyed here by `(album_id, fragment_id)`,
mirroring the `album_id '.' u64_be` key built by `Engine::get_id`. -/
def serve (sessions : List String) (u2a : List (String × Role))
    (albums : List (String × Album)) (fragments : List ((String × Nat) × Fragment))
    (key user_id album_id : String) (fragment_id : Option Nat) :
    Except ApiError ServeOut :=
  if sessions.contains key then
    match sLookup (user_id ++ "." ++ album_id) u2a with
    | none => .error .unauthorized
    | some role =>
      match fragment_id with
      | some fid =>
        match sLookup (album_id, fid) fragments with
        | none => .error .notFound
        | some fr => .ok (.fragment fr)
      | none =>
        match sLookup album_id albums with
        | none => .error .unauthorized
        | some a => .ok (.metadata a role)
  else .error .unauthorized

/-! ## The deletion journal (`delete.rs`) -/

/-- Command enum of the deletion journal. -/
inductive DelCmd
  | album (album_id : String)
  | file (file_id : String) (f : File)
  | user (user_id : String)
deriving DecidableEq, Repr

/-- The trees `delete_user` reads or writes directly. -/
structure CatalogState where
  users : List (String × UserRec)
  emails : List (String × String)
  sessions : List String
  user_to_album : List (String × Role)
  inclusions : List (String × String)
  files : List (String × File)

/-- delete_user (`delete.rs`): remove the user row and, when it existed,
the email row, in one transaction; remove every session under the prefix
`user_id '.'`; then issue a nested `Album` command for every
`user_to_album` entry under that prefix (whatever the stored role is),
and a nested `File` command for every `inclusions` entry under that
prefix whose VALUE names a file id present in `files`.  The nested
commands are returned in issuance order; each is run through the journal
by the caller. -/
def delete_user (st : CatalogState) (user_id : String) : CatalogState × List DelCmd :=
  let (users', emails') :=
    match sLookup user_id st.users with
    | some u => (sErase user_id st.users, sErase u.email st.emails)
    | none => (sErase user_id st.users, st.emails)
  let sessions' := st.sessions.filter (fun k => !(strHasPre (user_id ++ ".") k))
  let albumCmds :=
    (st.user_to_album.filter (fun p => strHasPre (user_id ++ ".") p.1)).filterMap
      (fun p => (splitOnceDot p.1).map (fun q => DelCmd.album q.2))
  let fileCmds :=
    (st.inclusions.filter (fun p => strHasPre (user_id ++ ".") p.1)).filterMap
      (fun p => (sLookup p.2 st.files).map (fun f => DelCmd.file p.2 f))
  ({ st with users := users', emails := emails', sessions := sessions' },
    albumCmds ++ fileCmds)

/-! ## Startup (`main.rs`, `file.rs::clean_files`, `delete.rs::restore`)

`main` builds the app state, then calls `clean_files` (the orphan sweep
over the three image directories) and THEN `Command::restore` (the
journal replay).  The state kept here is the projection startup
observes: the `files` tree, the three image directory listings and the
journal; `finishCmd` is the corresponding projection of `finish` (the
`Album` handler touches only albums/ACL/fragments/inclusions trees, and
the `User` handler's direct writes touch only users/emails/sessions —
its nested commands go through their own journal `run` calls). -/

/-- One startup state: catalog `files` tree, on-disk directory listings,
and the pending delete journal. -/
structure SysState where
  files : List (String × File)
  uploadDir : List String
  mediumDir : List String
  smallDir : List String
  journal : List (Nat × DelCmd)

/-- Events observable during startup: an orphan removal by the sweep
(tagged with the directory index), or a journal entry replay. -/
inductive StartupEvent
  | sweep (dir : Nat) (name : String)
  | replay (cmd_id : Nat)
deriving DecidableEq, Repr

/-- Whether an event is an orphan-sweep removal. -/
def StartupEvent.isSweep : StartupEvent → Bool
  | .sweep _ _ => true
  | _ => false

/-- Whether an event is a journal replay. -/
def StartupEvent.isReplay : StartupEvent → Bool
  | .replay _ => true
  | _ => false

/-- clean_path — remove every directory entry whose name is not a key of
the `files` tree, emitting one sweep event per removal. -/
def clean_path (files : List (String × File)) (dirIdx : Nat) (dir : List String) :
    List String × List StartupEvent :=
  (dir.filter (fun n => (sLookup n files).isSome),
    (dir.filter (fun n => (sLookup n files).isNone)).map (StartupEvent.sweep dirIdx))

/-- clean_files — sweep the three image directories. -/
def clean_files (s : SysState) : SysState × List StartupEvent :=
  let c1 := clean_path s.files 0 s.uploadDir
  let c2 := clean_path s.files 1 s.mediumDir
  let c3 := clean_path s.files 2 s.smallDir
  ({ s with uploadDir := c1.1, mediumDir := c2.1, smallDir := c3.1 }, c1.2 ++ c2.2 ++ c3.2)

/-- finish, projected to the startup state: a `File` command removes the
file record and the three on-disk derivatives named by the file id; an
`Album` command touches no component of this state; a `User` command's
direct writes touch no component of this state (on states whose
`inclusions` values are written by this server — empty bytes — its file
scan issues no nested commands, and nested album commands do not touch
this state either). -/
def finishCmd (cmd : DelCmd) (s : SysState) : SysState :=
  match cmd with
  | .album _ => s
  | .file fid _ =>
    { s with
        files := sErase fid s.files
        uploadDir := s.uploadDir.filter (fun n => n ≠ fid)
        mediumDir := s.mediumDir.filter (fun n => n ≠ fid)
        smallDir := s.smallDir.filter (fun n => n ≠ fid) }
  | .user _ => s

/-- One iteration of the restore loop: run `finish` on the command,
remove the journal entry, record the replay event. -/
def restoreStep (acc : SysState × List StartupEvent) (entry : Nat × DelCmd) :
    SysState × List StartupEvent :=
  let s' := finishCmd entry.2 acc.1
  ({ s' with journal := sErase entry.1 s'.journal },
    acc.2 ++ [StartupEvent.replay entry.1])

/-- restore — iterate the journal snapshot in key order, run `finish` on
each command and remove the journal entry, emitting one replay event per
entry. -/
def restore (s : SysState) : SysState × List StartupEvent :=
  s.journal.foldl restoreStep (s, [])

/-- The startup sequence of `main`: the orphan sweep FIRST, then the
journal replay. -/
def startup (s : SysState) : SysState × List StartupEvent :=
  let c := clean_files s
  let r := restore c.1
  (r.1, c.2 ++ r.2)

/-- Every replay event precedes every sweep event — the order §6 of the
spec asserts for startup. -/
def ReplayFirst (tr : List StartupEvent) : Prop :=
  tr.Pairwise (fun a b => !(a.isSweep && b.isReplay))

/-- Every sweep event precedes every replay event — the order the code
implements. -/
def SweepFirst (tr : List StartupEvent) : Prop :=
  tr.Pairwise (fun a b => !(a.isReplay && b.isSweep))

instance (tr : List StartupEvent) : Decidable (ReplayFirst tr) :=
  inferInstanceAs (Decidable (tr.Pairwise _))

instance (tr : List StartupEvent) : Decidable (SweepFirst tr) :=
  inferInstanceAs (Decidable (tr.Pairwise _))

/-! ## Derived state predicates -/

/-- Whether a fragment is a Section. -/
def Fragment.isSec : Fragment → Bool
  | .sec _ => true
  | .top _ => false

/-- Whether a fragment is a Top. -/
def Fragment.isTop : Fragment → Bool
  | .sec _ => false
  | .top _ => true

/-- The least and greatest day keys of a Top — exactly the
`date_range` computation at the end of Engine::commit. -/
def extremes (t : TopL) : Option (Int × Int) :=
  match t.head?, t.getLast? with
  | some mn, some mx => some (mn.1, mx.1)
  | _, _ => none

/-- The Section fragment a Top entry points to exists, is non-empty,
sorted, and has the length recorded in the entry. -/
def SecEntryOK (frags : FragTree) (det : SectionDetails) : Prop :=
  match secAt frags det.fragment_id with
  | some s => s.length = det.length ∧ s ≠ [] ∧ alSorted s
  | none => False

instance (frags : FragTree) (det : SectionDetails) : Decidable (SecEntryOK frags det) :=
  match h : secAt frags det.fragment_id with
  | some s =>
    decidable_of_iff (s.length = det.length ∧ s ≠ [] ∧ alSorted s) (by simp [SecEntryOK, h])
  | none => isFalse (by simp [SecEntryOK, h])

/-- Well-formedness of an album at rest whose Top is `t` and whose slice
of the `fragments` tree is `frags`: the §3/§8 invariants of the spec that
the engine maintains between commits. -/
structure WF (a : Album) (t : TopL) (frags : FragTree) : Prop where
  top_at_head : alLookup a.fragment_head frags = some (.top t)
  frags_sorted : alSorted frags
  top_sorted : alSorted t
  frags_le : ∀ p ∈ frags, p.1 ≤ a.fragment_head
  one_top : ∀ p ∈ frags, p.1 ≠ a.fragment_head → p.2.isSec = true
  ids_lt : ∀ p ∈ t, p.2.fragment_id < a.fragment_head
  ids_nodup : (t.map (fun p => p.2.fragment_id)).Nodup
  secs_ok : ∀ p ∈ t, SecEntryOK frags p.2
  dr_eq : a.date_range = extremes t

/-- The content of the album's Section for day `d`, read through the Top
at `album.fragment_head`: the day-indexed view of an album the add/remove
laws compare. -/
def dayContent (a : Album) (frags : FragTree) (d : Int) : Option SectionL :=
  match alLookup a.fragment_head frags with
  | some (.top t) => (alLookup d t).bind (fun det => secAt frags det.fragment_id)
  | _ => none

/-- Whether every entry of a Section buckets to day `d` under `tz`. -/
def sectionBucketsOKb (tz : Tz) (d : Int) (s : SectionL) : Bool :=
  s.all (fun q => tz.midnight q.1.ts == d)

/-- Whether, in the Top at the album's head, every Section's entries
bucket to that Section's day key under `tz` (§8 invariant 2 of the
spec). -/
def albumBucketsOKb (tz : Tz) (a : Album) (frags : FragTree) : Bool :=
  match alLookup a.fragment_head frags with
  | some (.top t) =>
    t.all (fun p =>
      match secAt frags p.2.fragment_id with
      | some s => sectionBucketsOKb tz p.1 s
      | none => false)
  | _ => false

/-- Invariant carried through Engine::commit's cache loop: the fragment
tree stays sorted and holds only Sections, every stored id is bounded by
the running head, the head only grows from the pre-commit head `h0`, and
every stored id either existed before the commit (was in `ids0`) or was
freshly allocated above `h0`. -/
structure CommitInv (h0 : Nat) (ids0 : List Nat) (st : CommitState) : Prop where
  sorted : alSorted st.frags
  head_ge : h0 ≤ st.head
  ids_le : ∀ p ∈ st.frags, p.1 ≤ st.head
  no_top : ∀ p ∈ st.frags, p.2.isSec = true
  fresh : ∀ p ∈ st.frags, p.1 ∈ ids0 ∨ h0 < p.1

/-! ## Concrete fixtures

Concrete states used to evaluate the modelled operations: models of two
IANA zones, the dummy data of the engine tests, and small catalog states.
-/

/-- Model of chrono-tz `Asia/Kolkata` (UTC+05:30, no transitions in the
modelled era): local midnight of the day containing `ts`. -/
def kolkata : Tz := ⟨"Asia/Kolkata", fun ts => 86400 * ((ts + 19800).fdiv 86400) - 19800⟩

/-- Model of chrono-tz `UTC`: local midnight of the day containing
`ts`. -/
def utc : Tz := ⟨"UTC", fun ts => 86400 * (ts.fdiv 86400)⟩

/-- dummy_file of the engine tests (`engine.rs::test`): file number `num`
with timestamp `ts`, dimensions `40+2*num × 41+2*num`, owner `u0`. -/
def dummy_file (num : Int) (ts : Int) : File :=
  ⟨"u0", 40 + 2 * num, 41 + 2 * num, ⟨ts, "name", "*/*"⟩⟩

/-- dummy_album of the engine tests (`engine.rs::test`): a fresh album in
`Asia/Kolkata` (the model keeps the `wire::Album` fields; the test's
legacy `owner_id` field is not part of the stored record's schema). -/
def dummy_album : Album := ⟨⟨"album_name", kolkata⟩, 0, 0, 0, none⟩

/-- The three-commit scenario of the spec's §8 scenarios 2–4: add `id_0`
and `id_1` in one commit, remove `id_0` in a second, then remove `id_0`
(a no-op) and `id_1` in a third, starting from the freshly created
album. -/
def c3Run : Option (Album × FragTree) := do
  let e ← Engine.new dummy_album Engine.emptyTree
  let e ← e.add "id_0" (dummy_file 0 0)
  let e ← e.add "id_1" (dummy_file 1 0)
  let (a1, f1) := e.commit 1
  let e ← Engine.new a1 f1
  let e ← e.remove "id_0" (dummy_file 0 0)
  let (a2, f2) := e.commit 2
  let e ← Engine.new a2 f2
  let e ← e.remove "id_0" (dummy_file 0 0)
  let e ← e.remove "id_1" (dummy_file 1 0)
  pure (e.commit 3)

/-- An album at rest in `Asia/Kolkata` holding one file at timestamp 0
(day key −19800), with fragment head 2. -/
def c1Album : Album := ⟨⟨"a", kolkata⟩, 2, 1, 0, some (-19800, -19800)⟩

/-- The fragment tree of `c1Album`: one Section at id 1 and the Top at
id 2. -/
def c1Frags : FragTree :=
  [(1, .sec [(mkKey 0 "f0", ⟨40, 41⟩)]), (2, .top [(-19800, ⟨1, 1⟩)])]

/-- The `files` tree backing `c1Album`: the one file, owned by `u0`,
with `last_modified = 0` and dimensions 40×41. -/
def c1Files : List (String × File) := [("f0", ⟨"u0", 40, 41, ⟨0, "name", "*/*"⟩⟩)]

/-- The PATCH of §8 scenario 5 evaluated on `c1Album`: change the time
zone to UTC. -/
def c1Run : Option (Album × FragTree) :=
  updateAlbum c1Files c1Album c1Frags ⟨"a", utc⟩ 5

/-- Add-then-remove of a file that is ALREADY in the album: run on
`c1Album`/`c1Frags`, which contain exactly that file. -/
def c5Run : Option (Album × FragTree) := do
  let r1 ← addCommit c1Album c1Frags "f0" ⟨"u0", 40, 41, ⟨0, "name", "*/*"⟩⟩ 10
  removeCommit r1.1 r1.2 "f0" ⟨"u0", 40, 41, ⟨0, "name", "*/*"⟩⟩ 20

/-- A catalog with user `u` (Editor on album `a`, which is owned by `v`)
and one file `f` owned by `u` that is included in `a`. -/
def c6State : CatalogState :=
  { users := [("u", ⟨"u@x", "pw"⟩), ("v", ⟨"v@x", "pw"⟩)]
    emails := [("u@x", "u"), ("v@x", "v")]
    sessions := ["u.s1", "v.s2"]
    user_to_album := [("u.a", Role.editor), ("v.a", Role.owner)]
    inclusions := [("f.a", "")]
    files := [("f", ⟨"u", 40, 41, ⟨0, "photo", "image/png"⟩⟩)] }

/-- A staged engine on a well-formed album: head 2, one section holding
two files, with the removal of `id_0` staged in the cache. -/
def c2Engine : Engine :=
  { album := ⟨⟨"album_name", kolkata⟩, 2, 2, 1, some (-19800, -19800)⟩
    fragments := [(1, .sec [(mkKey 0 "id_0", ⟨40, 41⟩), (mkKey 0 "id_1", ⟨42, 43⟩)]),
                  (2, .top [(-19800, ⟨1, 2⟩)])]
    cache := [(-19800, (some 1, [(mkKey 0 "id_1", ⟨42, 43⟩)]))]
    top := [(-19800, ⟨1, 2⟩)] }

/-- A one-album `albums` tree for exercising the share handler. -/
def c7Albums : List (String × Album) := [("a", ⟨⟨"a", utc⟩, 0, 0, 0, none⟩)]

/-- An `emails` tree with the album owner's address. -/
def c7Emails : List (String × String) := [("o@x", "o")]

/-- `user_to_album` with owner `o` and editor `e` on album `a`. -/
def c7U2a : List (String × Role) := [("o.a", Role.owner), ("e.a", Role.editor)]

/-- The mirrored `album_to_user` tree. -/
def c7A2u : List (String × Unit) := [("a.o", ()), ("a.e", ())]

/-- A startup state with one orphan on disk and one pending journal
entry. -/
def c9State : SysState :=
  { files := []
    uploadDir := ["orphan"]
    mediumDir := []
    smallDir := []
    journal := [(7, DelCmd.file "g" ⟨"u", 1, 2, ⟨0, "n", "m"⟩⟩)] }

/-! ## Lemmas about sorted association lists -/

section AListLemmas

variable {k v : Type} [LinearOrder k]

theorem alLookup_insert_self (key : k) (val : v) (m : List (k × v)) :
    alLookup key (alInsert key val m) = some val := by
  induction m with
  | nil => simp [alInsert, alLookup]
  | cons p rest ih =>
    obtain ⟨k', v'⟩ := p
    rcases lt_trichotomy key k' with h | h | h
    · simp [alInsert, alLookup, h, lt_irrefl]
    · subst h
      simp [alInsert, alLookup, lt_irrefl]
    · simp [alInsert, alLookup, h, h.not_lt, ih]

theorem alLookup_insert_ne (key key' : k) (val : v) (m : List (k × v)) (hne : key' ≠ key) :
    alLookup key' (alInsert key val m) = alLookup key' m := by
  induction m with
  | nil =>
    rcases lt_trichotomy key' key with h | h | h
    · simp [alInsert, alLookup, h]
    · exact absurd h hne
    · simp [alInsert, alLookup, h, h.not_lt]
  | cons p rest ih =>
    obtain ⟨k', v'⟩ := p
    rcases lt_trichotomy key k' with h | h | h
    · rcases lt_trichotomy key' key with h2 | h2 | h2
      · simp [alInsert, alLookup, h, h2, h2.trans h]
      · exact absurd h2 hne
      · simp [alInsert, alLookup, h, h2.not_lt, h2]
    · subst h
      rcases lt_trichotomy key' key with h2 | h2 | h2
      · simp [alInsert, alLookup, h2, lt_irrefl]
      · exact absurd h2 hne
      · simp [alInsert, alLookup, h2.not_lt, h2, lt_irrefl]
    · rcases lt_trichotomy key' k' with h2 | h2 | h2
      · simp [alInsert, alLookup, h, h.not_lt, h2]
      · subst h2
        simp [alInsert, alLookup, h, h.not_lt, lt_irrefl]
      · simp [alInsert, alLookup, h, h.not_lt, h2, h2.not_lt, ih]

theorem alLookup_none_of_lt (key : k) (m : List (k × v)) (h : ∀ p ∈ m, key < p.1) :
    alLookup key m = none := by
  cases m with
  | nil => rfl
  | cons p rest =>
    have := h p (List.mem_cons_self p rest)
    simp [alLookup, this]

theorem alSorted_tail {p : k × v} {rest : List (k × v)} (h : alSorted (p :: rest)) :
    alSorted rest := by
  exact (List.pairwise_cons.mp h).2

theorem alLookup_erase_self (key : k) (m : List (k × v)) (hs : alSorted m) :
    alLookup key (alErase key m) = none := by
  induction m with
  | nil => rfl
  | cons p rest ih =>
    obtain ⟨k', v'⟩ := p
    rcases lt_trichotomy key k' with h | h | h
    · have hrest : ∀ q ∈ rest, key < q.1 := by
        intro q hq
        exact h.trans ((List.pairwise_cons.mp hs).1 q hq)
      simp only [alErase, if_pos h]
      simp [alLookup, h]
    · subst h
      simp only [alErase, lt_irrefl, if_neg (lt_irrefl key).elim]
      have hrest : ∀ q ∈ rest, key < q.1 := (List.pairwise_cons.mp hs).1
      exact alLookup_none_of_lt key rest hrest
    · simp only [alErase, if_neg h.not_lt.elim, if_pos h]
      simp [alLookup, h.not_lt, h]
      exact ih (alSorted_tail hs)

theorem alLookup_erase_ne (key key' : k) (m : List (k × v)) (hs : alSorted m)
    (hne : key' ≠ key) : alLookup key' (alErase key m) = alLookup key' m := by
  induction m with
  | nil => rfl
  | cons p rest ih =>
    obtain ⟨k', v'⟩ := p
    rcases lt_trichotomy key k' with h | h | h
    · simp [alErase, h]
    · subst h
      rcases lt_trichotomy key' key with h2 | h2 | h2
      · have hrest : ∀ q ∈ rest, key' < q.1 := by
          intro q hq
          exact h2.trans ((List.pairwise_cons.mp hs).1 q hq)
        simp only [alErase, lt_irrefl, if_neg (lt_irrefl key).elim]
        simp [alLookup, h2]
        exact alLookup_none_of_lt key' rest hrest
      · exact absurd h2 hne
      · simp only [alErase, if_neg (lt_irrefl key).elim]
        simp [alLookup, h2.not_lt, h2]
    · rcases lt_trichotomy key' k' with h2 | h2 | h2
      · simp [alErase, alLookup, h, h.not_lt, h2]
      · subst h2
        simp [alErase, alLookup, h, h.not_lt, lt_irrefl]
      · simp only [alErase, if_neg h.not_lt.elim, if_pos h]
        simp [alLookup, h2.not_lt, h2]
        exact ih (alSorted_tail hs)

end AListLemmas

section AListLemmasB

variable {k v : Type} [LinearOrder k]

theorem mem_alInsert {p : k × v} (key : k) (val : v) (m : List (k × v))
    (h : p ∈ alInsert key val m) : p = (key, val) ∨ p ∈ m := by
  induction m with
  | nil => simpa [alInsert] using h
  | cons q rest ih =>
    obtain ⟨k', v'⟩ := q
    rcases lt_trichotomy key k' with h1 | h1 | h1
    · simp only [alInsert, if_pos h1] at h
      simpa using h
    · subst h1
      simp only [alInsert, lt_irrefl, if_neg (lt_irrefl key).elim] at h
      rcases List.mem_cons.mp h with h | h
      · exact Or.inl h
      · exact Or.inr (List.mem_cons_of_mem _ h)
    · simp only [alInsert, if_neg h1.not_lt.elim, if_pos h1] at h
      rcases List.mem_cons.mp h with h | h
      · exact Or.inr (List.mem_cons.mpr (Or.inl h))
      · rcases ih h with h | h
        · exact Or.inl h
        · exact Or.inr (List.mem_cons_of_mem _ h)

theorem mem_alErase {p : k × v} (key : k) (m : List (k × v))
    (h : p ∈ alErase key m) : p ∈ m := by
  induction m with
  | nil => simp [alErase] at h
  | cons q rest ih =>
    obtain ⟨k', v'⟩ := q
    rcases lt_trichotomy key k' with h1 | h1 | h1
    · simpa only [alErase, if_pos h1] using h
    · subst h1
      simp only [alErase, lt_irrefl, if_neg (lt_irrefl key).elim] at h
      exact List.mem_cons_of_mem _ h
    · simp only [alErase, if_neg h1.not_lt.elim, if_pos h1] at h
      rcases List.mem_cons.mp h with h | h
      · exact List.mem_cons.mpr (Or.inl h)
      · exact List.mem_cons_of_mem _ (ih h)

theorem alSorted_insert (key : k) (val : v) (m : List (k × v)) (hs : alSorted m) :
    alSorted (alInsert key val m) := by
  induction m with
  | nil => simp [alInsert, alSorted]
  | cons q rest ih =>
    obtain ⟨k', v'⟩ := q
    obtain ⟨hhead, htail⟩ := List.pairwise_cons.mp hs
    rcases lt_trichotomy key k' with h1 | h1 | h1
    · simp only [alInsert, if_pos h1]
      refine List.pairwise_cons.mpr ⟨?_, hs⟩
      intro q hq
      rcases List.mem_cons.mp hq with h | h
      · subst h; exact h1
      · exact h1.trans (hhead q h)
    · subst h1
      simp only [alInsert, lt_irrefl, if_neg (lt_irrefl key).elim]
      exact List.pairwise_cons.mpr ⟨hhead, htail⟩
    · simp only [alInsert, if_neg h1.not_lt.elim, if_pos h1]
      refine List.pairwise_cons.mpr ⟨?_, ih htail⟩
      intro q hq
      rcases mem_alInsert key val rest hq with h | h
      · subst h; exact h1
      · exact hhead q h

theorem alSorted_erase (key : k) (m : List (k × v)) (hs : alSorted m) :
    alSorted (alErase key m) := by
  induction m with
  | nil => simp [alErase, alSorted]
  | cons q rest ih =>
    obtain ⟨k', v'⟩ := q
    obtain ⟨hhead, htail⟩ := List.pairwise_cons.mp hs
    rcases lt_trichotomy key k' with h1 | h1 | h1
    · simpa only [alErase, if_pos h1] using hs
    · subst h1
      simpa only [alErase, lt_irrefl, if_neg (lt_irrefl key).elim] using htail
    · simp only [alErase, if_neg h1.not_lt.elim, if_pos h1]
      refine List.pairwise_cons.mpr ⟨?_, ih htail⟩
      intro q hq
      exact hhead q (mem_alErase key rest hq)

theorem alErase_insert_cancel (key : k) (val : v) (m : List (k × v)) (hs : alSorted m)
    (hnone : alLookup key m = none) : alErase key (alInsert key val m) = m := by
  induction m with
  | nil => simp [alInsert, alErase, lt_irrefl]
  | cons q rest ih =>
    obtain ⟨k', v'⟩ := q
    rcases lt_trichotomy key k' with h1 | h1 | h1
    · simp only [alInsert, if_pos h1, alErase, lt_irrefl, if_neg (lt_irrefl key).elim]
      simp
    · subst h1
      simp [alLookup, lt_irrefl] at hnone
    · simp only [alLookup, if_neg h1.not_lt.elim, if_pos h1] at hnone
      simp only [alInsert, if_neg h1.not_lt.elim, if_pos h1, alErase]
      rw [ih (alSorted_tail hs) hnone]

theorem alInsert_keys_of_mem (key : k) (val : v) (m : List (k × v)) {w : v}
    (h : alLookup key m = some w) :
    (alInsert key val m).map Prod.fst = m.map Prod.fst := by
  induction m with
  | nil => simp [alLookup] at h
  | cons q rest ih =>
    obtain ⟨k', v'⟩ := q
    rcases lt_trichotomy key k' with h1 | h1 | h1
    · simp [alLookup, h1] at h
    · subst h1
      simp only [alInsert, lt_irrefl, if_neg (lt_irrefl key).elim]
      simp
    · simp only [alLookup, if_neg h1.not_lt.elim, if_pos h1] at h
      simp only [alInsert, if_neg h1.not_lt.elim, if_pos h1]
      simpa using ih h

theorem alInsert_length_of_none (key : k) (val : v) (m : List (k × v))
    (h : alLookup key m = none) :
    (alInsert key val m).length = m.length + 1 := by
  induction m with
  | nil => simp [alInsert]
  | cons q rest ih =>
    obtain ⟨k', v'⟩ := q
    rcases lt_trichotomy key k' with h1 | h1 | h1
    · simp [alInsert, h1]
    · subst h1
      simp [alLookup, lt_irrefl] at h
    · simp only [alLookup, if_neg h1.not_lt.elim, if_pos h1] at h
      simp only [alInsert, if_neg h1.not_lt.elim, if_pos h1]
      simp [ih h]

theorem alLookup_mem (key : k) (m : List (k × v)) {w : v}
    (h : alLookup key m = some w) : (key, w) ∈ m := by
  induction m with
  | nil => simp [alLookup] at h
  | cons q rest ih =>
    obtain ⟨k', v'⟩ := q
    rcases lt_trichotomy key k' with h1 | h1 | h1
    · simp [alLookup, h1] at h
    · subst h1
      simp [alLookup, lt_irrefl] at h
      subst h
      exact List.mem_cons_self _ _
    · simp only [alLookup, if_neg h1.not_lt.elim, if_pos h1] at h
      exact List.mem_cons_of_mem _ (ih h)

theorem alLookup_of_mem {p : k × v} (m : List (k × v)) (hs : alSorted m) (h : p ∈ m) :
    alLookup p.1 m = some p.2 := by
  induction m with
  | nil => simp at h
  | cons q rest ih =>
    obtain ⟨k', v'⟩ := q
    obtain ⟨hhead, htail⟩ := List.pairwise_cons.mp hs
    rcases List.mem_cons.mp h with h | h
    · subst h
      simp [alLookup, lt_irrefl]
    · have hlt : k' < p.1 := hhead p h
      simp only [alLookup, if_neg hlt.not_lt.elim, if_pos hlt]
      exact ih htail h

end AListLemmasB

/-! ## Claim theorems (first batch) -/

/-- C1: the claim says the rebucketing inside a time-zone PATCH re-adds
each file bucketed under the NEW zone, so that post-commit every
Section's entries bucket to its day key under the new zone.  The code
keeps the OLD description on the engine while re-adding (the submitted
settings are assigned only after the commit), so the files are bucketed
under the OLD zone: at the concrete state `c1Album`/`c1Frags` (one file
with timestamp 0, zone `Asia/Kolkata`, day key −19800) patched to UTC,
the committed Top keeps the day key −19800 and the section fails the
bucketing check under the new (UTC) zone while still passing it under
the old zone. -/
theorem c1_rebucket_uses_old_zone :
    (c1Run.map fun p => (p.1.fragment_head, p.1.description.time_zone.name)) = some (4, "UTC")
    ∧ (c1Run.map fun p => p.2)
      = some [(3, .sec [(mkKey 0 "f0", ⟨40, 41⟩)]), (4, .top [(-19800, ⟨3, 1⟩)])]
    ∧ (c1Run.map fun p => albumBucketsOKb p.1.description.time_zone p.1 p.2) = some false
    ∧ (c1Run.map fun p => albumBucketsOKb kolkata p.1 p.2) = some true :=
  ⟨by decide, by decide, by decide, by decide⟩

/-- C3 counterexample: the claim (following §8 scenario 4 of the spec)
puts the final Top at fragment id 6; running the three commits of the
scenario leaves `fragment_head = 5` and NO fragment at id 6, so the
claim is false at this input. -/
theorem c3_top_not_at_six :
    (c3Run.map fun p => (p.1.fragment_head, alLookup 6 p.2)) = some (5, none) := by
  decide

/-- C3 (amended): after the third commit the Top is written at fragment
id 5 with content `[]`, no Section fragments remain, `album.length = 0`
and `album.date_range = None`. -/
theorem c3_final_state :
    (c3Run.map fun p => (p.1.fragment_head, p.1.length, p.1.date_range)) = some (5, 0, none)
    ∧ (c3Run.map fun p => p.2) = some [(5, Fragment.top [])] :=
  ⟨by decide, by decide⟩

/-- C4: a freshly opened engine has an empty cache, and committing it
performs no writes or deletes on the fragments tree and leaves every
field of the album record unchanged — commit returns exactly the album
and tree it was opened on. -/
theorem c4_empty_commit_noop (album : Album) (frags : FragTree) (now : Int) (e : Engine)
    (h : Engine.new album frags = some e) : e.commit now = (album, frags) := by
  unfold Engine.new at h
  rcases hl : alLookup album.fragment_head frags with _ | fr
  · rw [hl] at h
    exact absurd h (by simp)
  · rcases fr with s | t
    · rw [hl] at h
      simp at h
    · rw [hl] at h
      simp only [Option.some_inj] at h
      subst h
      rfl

/-- C4 witness: the empty commit on the freshly created dummy album. -/
theorem c4_empty_commit_noop_witness :
    Engine.new dummy_album Engine.emptyTree = some ⟨dummy_album, Engine.emptyTree, [], []⟩
    ∧ Engine.commit ⟨dummy_album, Engine.emptyTree, [], []⟩ 5 = (dummy_album, Engine.emptyTree) :=
  ⟨rfl, c4_empty_commit_noop dummy_album Engine.emptyTree 5 _ rfl⟩

/-- C6: the claim says DeleteCommand::User issues a nested Album command
exactly for albums where the user is Owner, and a nested File command
exactly for each file the user owns.  Evaluating the handler at
`c6State` — where `u` is only Editor on album `a` and owns file `f`
included in `a` — it issues `Album "a"` (although `u` is not Owner) and
NO File command (the file scan walks `inclusions`, keyed
`file_id '.' album_id` with empty values, under the `user_id '.'`
prefix, which matches nothing). -/
theorem c6_delete_user_eval :
    (delete_user c6State "u").2 = [DelCmd.album "a"]
    ∧ sLookup "u.a" c6State.user_to_album = some Role.editor
    ∧ (c6State.files.filter (fun p => p.2.owner_id == "u")).map Prod.fst = ["f"] :=
  ⟨by decide, by decide, by decide⟩

/-- C7: a ShareAlbum call fails, leaving `user_to_album` and
`album_to_user` unchanged, whenever the requested role is Owner or the
target user's existing role on the album is Owner. -/
theorem c7_share_owner_fails (albums : List (String × Album)) (emails : List (String × String))
    (u2a : List (String × Role)) (a2u : List (String × Unit))
    (user_id album_id email : String) (role : Role)
    (h : role = Role.owner ∨
      (∃ target, sLookup email emails = some target ∧
        sLookup (target ++ "." ++ album_id) u2a = some Role.owner)) :
    (share albums emails u2a a2u user_id album_id email role).1 = (u2a, a2u)
    ∧ ((share albums emails u2a a2u user_id album_id email role).2).isSome = true := by
  by_cases hrole : role = Role.owner
  · subst hrole
    simp [share]
  · rcases h with h | ⟨target, he, ho⟩
    · exact absurd h hrole
    · have hb : ∃ er, shareBody albums emails u2a a2u user_id album_id email role
          = .error er := by
        unfold shareBody
        cases hA : sLookup album_id albums with
        | none => exact ⟨.unauthorized, rfl⟩
        | some a =>
          cases hW : test_user_can_write u2a user_id album_id with
          | error er => exact ⟨er, rfl⟩
          | ok uu =>
            refine ⟨.badRequest, ?_⟩
            simp [he, ho]
      obtain ⟨er, hb⟩ := hb
      simp [share, hrole, hb]

/-- C7 witness: editor `e` attempting to overwrite the owner's role. -/
theorem c7_share_owner_fails_witness :
    (Role.editor = Role.owner ∨
      (∃ target, sLookup "o@x" c7Emails = some target ∧
        sLookup (target ++ "." ++ "a") c7U2a = some Role.owner))
    ∧ ((share c7Albums c7Emails c7U2a c7A2u "e" "a" "o@x" Role.editor).1 = (c7U2a, c7A2u)
      ∧ ((share c7Albums c7Emails c7U2a c7A2u "e" "a" "o@x" Role.editor).2).isSome = true) :=
  ⟨Or.inr ⟨"o", by decide, by decide⟩,
    c7_share_owner_fails c7Albums c7Emails c7U2a c7A2u "e" "a" "o@x" Role.editor
      (Or.inr ⟨"o", by decide, by decide⟩)⟩

/-- C8: when the `(owner '.' name)` index entry already exists, the
upload catalog transaction fails with FileExists and neither the
tentative `files` insert nor a new `file_names` entry persists — the
trees come back unchanged. -/
theorem c8_upload_duplicate_name (users : List (String × UserRec))
    (files : List (String × File)) (file_names : List (String × String))
    (owner_id file_id : String) (file : File)
    (hu : (sLookup owner_id users).isSome = true)
    (hn : (sLookup (owner_id ++ "." ++ file.metadata.name) file_names).isSome = true) :
    upload users files file_names owner_id file_id file
      = ((files, file_names), some ApiError.fileExists) := by
  obtain ⟨u, hu⟩ := Option.isSome_iff_exists.mp hu
  obtain ⟨f0, hn⟩ := Option.isSome_iff_exists.mp hn
  simp [upload, uploadBody, hu, hn]

/-- C8 witness: re-uploading a name already present in `file_names`. -/
theorem c8_upload_duplicate_name_witness :
    ((sLookup "u" [("u", UserRec.mk "u@x" "pw")]).isSome = true)
    ∧ ((sLookup ("u" ++ "." ++ "photo") [("u.photo", "f_old")]).isSome = true)
    ∧ upload [("u", UserRec.mk "u@x" "pw")] [] [("u.photo", "f_old")] "u" "f_new"
        ⟨"u", 40, 41, ⟨0, "photo", "image/png"⟩⟩
      = (([], [("u.photo", "f_old")]), some ApiError.fileExists) :=
  ⟨by decide, by decide,
    c8_upload_duplicate_name [("u", UserRec.mk "u@x" "pw")] [] [("u.photo", "f_old")]
      "u" "f_new" ⟨"u", 40, 41, ⟨0, "photo", "image/png"⟩⟩ (by decide) (by decide)⟩

/-- C9 counterexample: the claim (following §6 of the spec) says startup
replays the journal first and sweeps afterwards; on `c9State` the
startup trace is `[sweep, replay]`, in which a sweep event precedes a
replay event. -/
theorem c9_replay_not_first :
    (startup c9State).2 = [.sweep 0 "orphan", .replay 7]
    ∧ ¬ ReplayFirst (startup c9State).2 :=
  ⟨by decide, by decide⟩

/-- C10: with a valid session but no `user_to_album` entry for the
album, ServeFragment answers Unauthorized regardless of the albums tree,
the fragments tree and the requested fragment id — the membership check
runs before any fragment lookup, so a non-member cannot distinguish
existing from non-existing fragment ids. -/
theorem c10_serve_nonmember_unauthorized (sessions : List String)
    (u2a : List (String × Role)) (albums : List (String × Album))
    (fragments : List ((String × Nat) × Fragment)) (key user_id album_id : String)
    (fragment_id : Option Nat)
    (_hsess : sessions.contains key = true)
    (hmem : sLookup (user_id ++ "." ++ album_id) u2a = none) :
    serve sessions u2a albums fragments key user_id album_id fragment_id
      = .error .unauthorized := by
  simp [serve, _hsess, hmem]

/-- C10 witness: the requested fragment exists, yet the non-member gets
Unauthorized, not NotFound. -/
theorem c10_serve_nonmember_unauthorized_witness :
    (["u.s"].contains "u.s" = true)
    ∧ (sLookup ("u" ++ "." ++ "a") ([] : List (String × Role)) = none)
    ∧ serve ["u.s"] [] [] [(("a", 0), Fragment.top [])] "u.s" "u" "a" (some 0)
      = .error .unauthorized :=
  ⟨by decide, by decide,
    c10_serve_nonmember_unauthorized ["u.s"] [] [] [(("a", 0), Fragment.top [])]
      "u.s" "u" "a" (some 0) (by decide) (by decide)⟩

/-! ## Startup ordering (C9 amended) -/

theorem finishCmd_journal (c : DelCmd) (s : SysState) : (finishCmd c s).journal = s.journal := by
  cases c <;> rfl

theorem not_replay_of_sweep {e : StartupEvent} (h : e.isSweep = true) : e.isReplay = false := by
  cases e <;> simp_all [StartupEvent.isSweep, StartupEvent.isReplay]

theorem not_sweep_of_replay {e : StartupEvent} (h : e.isReplay = true) : e.isSweep = false := by
  cases e <;> simp_all [StartupEvent.isSweep, StartupEvent.isReplay]

theorem restore_fold_snd (l : List (Nat × DelCmd)) :
    ∀ (st : SysState) (evs : List StartupEvent),
      (l.foldl restoreStep (st, evs)).2 = evs ++ l.map (fun p => StartupEvent.replay p.1) := by
  induction l with
  | nil =>
    intro st evs
    simp
  | cons p rest ih =>
    intro st evs
    simp only [List.foldl_cons, List.map_cons]
    rw [show restoreStep (st, evs) p
        = ({ finishCmd p.2 st with journal := sErase p.1 (finishCmd p.2 st).journal },
            evs ++ [StartupEvent.replay p.1]) from rfl]
    rw [ih]
    simp

theorem restore_fold_journal (l : List (Nat × DelCmd)) :
    ∀ (st : SysState) (evs : List StartupEvent), st.journal = l →
      ((l.foldl restoreStep (st, evs)).1).journal = [] := by
  induction l with
  | nil =>
    intro st evs h
    simpa using h
  | cons p rest ih =>
    intro st evs h
    simp only [List.foldl_cons]
    apply ih
    show (sErase p.1 (finishCmd p.2 st).journal) = rest
    rw [finishCmd_journal, h]
    simp [sErase]

theorem clean_files_sweeps (s : SysState) :
    ∀ e ∈ (clean_files s).2, e.isSweep = true := by
  intro e he
  have : e ∈ ((s.uploadDir.filter (fun n => (sLookup n s.files).isNone)).map
        (StartupEvent.sweep 0))
      ++ ((s.mediumDir.filter (fun n => (sLookup n s.files).isNone)).map
        (StartupEvent.sweep 1))
      ++ ((s.smallDir.filter (fun n => (sLookup n s.files).isNone)).map
        (StartupEvent.sweep 2)) := he
  rcases List.mem_append.mp this with h | h
  · rcases List.mem_append.mp h with h | h
    · obtain ⟨n, _, rfl⟩ := List.mem_map.mp h
      rfl
    · obtain ⟨n, _, rfl⟩ := List.mem_map.mp h
      rfl
  · obtain ⟨n, _, rfl⟩ := List.mem_map.mp h
    rfl

/-- C9 (amended): startup runs the orphan sweep first and the journal
replay only afterwards — in the startup trace every sweep event precedes
every replay event — and the replay finishes every pending journal
entry, leaving the journal empty. -/
theorem c9_sweep_then_replay (s : SysState) :
    SweepFirst (startup s).2 ∧ (startup s).1.journal = [] := by
  constructor
  · show ((clean_files s).2 ++ (restore (clean_files s).1).2).Pairwise _
    apply List.pairwise_append.mpr
    refine ⟨?_, ?_, ?_⟩
    · apply List.pairwise_of_forall_mem_list
      intro a ha b _
      have := not_replay_of_sweep (clean_files_sweeps s a ha)
      simp [this]
    · apply List.pairwise_of_forall_mem_list
      intro a _ b hb
      simp only [restore] at hb
      rw [restore_fold_snd] at hb
      simp only [List.nil_append] at hb
      obtain ⟨p, _, rfl⟩ := List.mem_map.mp hb
      simp [StartupEvent.isSweep]
    · intro a ha b _
      have := not_replay_of_sweep (clean_files_sweeps s a ha)
      simp [this]
  · show ((restore (clean_files s).1).1).journal = []
    exact restore_fold_journal _ _ _ rfl

/-! ## The commit loop (towards C2) -/

theorem commitStep_inv {h0 : Nat} {ids0 : List Nat} {st : CommitState}
    (inv : CommitInv h0 ids0 st) (entry : Int × (Option Nat × SectionL)) :
    CommitInv h0 ids0 (commitStep st entry) := by
  obtain ⟨ts, maybeId, sect⟩ := entry
  have base : ∀ frags1 : FragTree,
      alSorted frags1 →
      (∀ p ∈ frags1, p.1 ≤ st.head) →
      (∀ p ∈ frags1, p.2.isSec = true) →
      (∀ p ∈ frags1, p.1 ∈ ids0 ∨ h0 < p.1) →
      CommitInv h0 ids0 (commitStep st (ts, (maybeId, sect))) →
      True := fun _ _ _ _ _ _ => trivial
  clear base
  have hfr : ∀ (frags1 : FragTree), frags1 = (match maybeId with
      | some id => alErase id st.frags
      | none => st.frags) →
      alSorted frags1 ∧ (∀ p ∈ frags1, p.1 ≤ st.head)
        ∧ (∀ p ∈ frags1, p.2.isSec = true) ∧ (∀ p ∈ frags1, p.1 ∈ ids0 ∨ h0 < p.1) := by
    intro frags1 hdef
    cases maybeId with
    | none =>
      subst hdef
      exact ⟨inv.sorted, inv.ids_le, inv.no_top, inv.fresh⟩
    | some id =>
      subst hdef
      refine ⟨alSorted_erase id st.frags inv.sorted, ?_, ?_, ?_⟩
      · intro p hp; exact inv.ids_le p (mem_alErase id st.frags hp)
      · intro p hp; exact inv.no_top p (mem_alErase id st.frags hp)
      · intro p hp; exact inv.fresh p (mem_alErase id st.frags hp)
  obtain ⟨hs1, hle1, htop1, hfresh1⟩ := hfr _ rfl
  unfold commitStep
  by_cases hpos : sect.length > 0
  · simp only [hpos, if_pos hpos]
    constructor
    · exact alSorted_insert _ _ _ hs1
    · exact inv.head_ge.trans (Nat.le_succ st.head)
    · intro p hp
      rcases mem_alInsert _ _ _ hp with h | h
      · subst h; exact le_refl _
      · exact (hle1 p h).trans (Nat.le_succ st.head)
    · intro p hp
      rcases mem_alInsert _ _ _ hp with h | h
      · subst h; rfl
      · exact htop1 p h
    · intro p hp
      rcases mem_alInsert _ _ _ hp with h | h
      · subst h
        exact Or.inr (Nat.lt_of_le_of_lt inv.head_ge (Nat.lt_succ_self st.head))
      · exact hfresh1 p h
  · simp only [if_neg hpos]
    exact ⟨hs1, inv.head_ge, hle1, htop1, hfresh1⟩

theorem commitLoop_inv {h0 : Nat} {ids0 : List Nat} (c : List (Int × (Option Nat × SectionL))) :
    ∀ (st : CommitState), CommitInv h0 ids0 st → CommitInv h0 ids0 (c.foldl commitStep st) := by
  induction c with
  | nil => intro st inv; exact inv
  | cons entry rest ih =>
    intro st inv
    exact ih _ (commitStep_inv inv entry)

theorem commitStep_head_mono (st : CommitState) (entry : Int × (Option Nat × SectionL)) :
    st.head ≤ (commitStep st entry).head := by
  obtain ⟨ts, maybeId, sect⟩ := entry
  unfold commitStep
  by_cases hpos : sect.length > 0
  · simp only [hpos, if_pos hpos]
    exact Nat.le_succ st.head
  · simp only [if_neg hpos]
    exact le_refl _

theorem commitLoop_head_mono (c : List (Int × (Option Nat × SectionL))) :
    ∀ (st : CommitState), st.head ≤ (c.foldl commitStep st).head := by
  induction c with
  | nil => intro st; exact le_refl _
  | cons entry rest ih =>
    intro st
    exact (commitStep_head_mono st entry).trans (ih _)

theorem commitStep_dead {h0 : Nat} {ids0 : List Nat} {st : CommitState} {i : Nat}
    (inv : CommitInv h0 ids0 st) (hi : i ≤ h0) (hdead : alLookup i st.frags = none)
    (entry : Int × (Option Nat × SectionL)) :
    alLookup i (commitStep st entry).frags = none := by
  obtain ⟨ts, maybeId, sect⟩ := entry
  have hfr : alLookup i (match maybeId with
      | some id => alErase id st.frags
      | none => st.frags) = none := by
    cases maybeId with
    | none => exact hdead
    | some id =>
      by_cases hii : i = id
      · subst hii
        exact alLookup_erase_self i st.frags inv.sorted
      · rw [alLookup_erase_ne id i st.frags inv.sorted hii]
        exact hdead
  unfold commitStep
  by_cases hpos : sect.length > 0
  · simp only [if_pos hpos]
    have hne : i ≠ st.head + 1 := by
      intro hcon
      have hc : st.head + 1 ≤ h0 := hcon ▸ hi
      exact absurd (hc.trans inv.head_ge) (Nat.not_succ_le_self st.head)
    rw [alLookup_insert_ne (st.head + 1) i _ _ hne]
    exact hfr
  · simp only [if_neg hpos]
    exact hfr

theorem commitLoop_dead {h0 : Nat} {ids0 : List Nat} {i : Nat}
    (c : List (Int × (Option Nat × SectionL))) :
    ∀ (st : CommitState), CommitInv h0 ids0 st → i ≤ h0 → alLookup i st.frags = none →
      alLookup i ((c.foldl commitStep st)).frags = none := by
  induction c with
  | nil => intro st _ _ hdead; exact hdead
  | cons entry rest ih =>
    intro st inv hi hdead
    exact ih _ (commitStep_inv inv entry) hi (commitStep_dead inv hi hdead entry)

theorem commitStep_kills {h0 : Nat} {ids0 : List Nat} {st : CommitState} {i : Nat}
    (inv : CommitInv h0 ids0 st) (hi : i ≤ h0) (d : Int) (s : SectionL) :
    alLookup i (commitStep st (d, (some i, s))).frags = none := by
  have hfr : alLookup i (alErase i st.frags) = none :=
    alLookup_erase_self i st.frags inv.sorted
  unfold commitStep
  by_cases hpos : s.length > 0
  · simp only [if_pos hpos]
    have hne : i ≠ st.head + 1 := by
      intro hcon
      have hc : st.head + 1 ≤ h0 := hcon ▸ hi
      exact absurd (hc.trans inv.head_ge) (Nat.not_succ_le_self st.head)
    rw [alLookup_insert_ne (st.head + 1) i _ _ hne]
    exact hfr
  · simp only [if_neg hpos]
    exact hfr

theorem commitLoop_kills {h0 : Nat} {ids0 : List Nat}
    (c : List (Int × (Option Nat × SectionL))) :
    ∀ (st : CommitState), CommitInv h0 ids0 st →
      (∀ d i s, (d, (some i, s)) ∈ c → i ≤ h0) →
      ∀ d i s, (d, (some i, s)) ∈ c →
        alLookup i ((c.foldl commitStep st)).frags = none := by
  induction c with
  | nil =>
    intro st _ _ d i s h
    simp at h
  | cons entry rest ih =>
    intro st inv hbound d i s hmem
    rcases List.mem_cons.mp hmem with h | h
    · subst h
      have hi : i ≤ h0 := hbound d i s (List.mem_cons_self _ _)
      exact commitLoop_dead rest _ (commitStep_inv inv _) hi (commitStep_kills inv hi d s)
    · exact ih _ (commitStep_inv inv _)
        (fun d' i' s' h' => hbound d' i' s' (List.mem_cons_of_mem _ h')) d i s h

/-- C2: for every commit with a non-empty staged cache (on a well-formed
engine state whose staged original ids are genuine pre-commit section
ids), every fragment id present after the commit that was not present
before is strictly greater than the pre-commit `fragment_head`; the old
Top (at the pre-commit head) and the original fragment of every staged
Section that existed before are deleted; and at rest exactly one Top
exists — there is a Top at the new `fragment_head` and every Top in the
tree sits at that id. -/
theorem c2_commit_fresh_ids (e : Engine) (now : Int)
    (hwf : WF e.album e.top e.fragments)
    (hcache : e.cache ≠ [])
    (horig : ∀ d i s, (d, (some i, s)) ∈ e.cache → i < e.album.fragment_head) :
    e.album.fragment_head < (e.commit now).1.fragment_head
    ∧ (∀ p ∈ (e.commit now).2, p.1 ∉ e.fragments.map Prod.fst →
        e.album.fragment_head < p.1)
    ∧ alLookup e.album.fragment_head (e.commit now).2 = none
    ∧ (∀ d i s, (d, (some i, s)) ∈ e.cache → alLookup i (e.commit now).2 = none)
    ∧ (∃ t', alLookup (e.commit now).1.fragment_head (e.commit now).2 = some (.top t'))
    ∧ (∀ p ∈ (e.commit now).2, p.2.isTop = true → p.1 = (e.commit now).1.fragment_head) := by
  have heq : e.commit now
      = ({ e.album with
            fragment_head :=
              (List.foldl commitStep
                ⟨e.album.fragment_head, e.top,
                  alErase e.album.fragment_head e.fragments, e.album.length⟩ e.cache).head + 1
            length :=
              (List.foldl commitStep
                ⟨e.album.fragment_head, e.top,
                  alErase e.album.fragment_head e.fragments, e.album.length⟩ e.cache).len
            last_update := now
            date_range :=
              match
                (List.foldl commitStep
                  ⟨e.album.fragment_head, e.top,
                    alErase e.album.fragment_head e.fragments, e.album.length⟩ e.cache).top.head?,
                (List.foldl commitStep
                  ⟨e.album.fragment_head, e.top,
                    alErase e.album.fragment_head e.fragments, e.album.length⟩ e.cache).top.getLast?
                with
              | some mn, some mx => some (mn.1, mx.1)
              | _, _ => none },
          alInsert
            ((List.foldl commitStep
              ⟨e.album.fragment_head, e.top,
                alErase e.album.fragment_head e.fragments, e.album.length⟩ e.cache).head + 1)
            (.top (List.foldl commitStep
              ⟨e.album.fragment_head, e.top,
                alErase e.album.fragment_head e.fragments, e.album.length⟩ e.cache).top)
            (List.foldl commitStep
              ⟨e.album.fragment_head, e.top,
                alErase e.album.fragment_head e.fragments, e.album.length⟩ e.cache).frags) := by
    unfold Engine.commit
    rw [if_neg hcache]
  rw [heq]
  set st := List.foldl commitStep
    ⟨e.album.fragment_head, e.top,
      alErase e.album.fragment_head e.fragments, e.album.length⟩ e.cache with hst
  have inv0 : CommitInv e.album.fragment_head (e.fragments.map Prod.fst)
      ⟨e.album.fragment_head, e.top,
        alErase e.album.fragment_head e.fragments, e.album.length⟩ := by
    refine ⟨alSorted_erase _ _ hwf.frags_sorted, le_refl _, ?_, ?_, ?_⟩
    · intro p hp
      exact hwf.frags_le p (mem_alErase _ _ hp)
    · intro p hp
      have hpm : p ∈ e.fragments := mem_alErase _ _ hp
      have hpne : p.1 ≠ e.album.fragment_head := by
        intro hcon
        have hsome := alLookup_of_mem _ (alSorted_erase _ _ hwf.frags_sorted) hp
        rw [hcon, alLookup_erase_self _ _ hwf.frags_sorted] at hsome
        exact absurd hsome (by simp)
      exact hwf.one_top p hpm hpne
    · intro p hp
      exact Or.inl (List.mem_map_of_mem Prod.fst (mem_alErase _ _ hp))
  have inv : CommitInv e.album.fragment_head (e.fragments.map Prod.fst) st := by
    rw [hst]
    exact commitLoop_inv e.cache _ inv0
  have hhead : e.album.fragment_head ≤ st.head := by
    rw [hst]
    exact commitLoop_head_mono e.cache
      ⟨e.album.fragment_head, e.top, alErase e.album.fragment_head e.fragments, e.album.length⟩
  have hheadlt : e.album.fragment_head < st.head + 1 := Nat.lt_succ_of_le hhead
  have hheadne : e.album.fragment_head ≠ st.head + 1 := Nat.ne_of_lt hheadlt
  refine ⟨hheadlt, ?_, ?_, ?_, ?_, ?_⟩
  · intro p hp hnotin
    rcases mem_alInsert _ _ _ hp with h | h
    · subst h
      exact hheadlt
    · rcases inv.fresh p h with h2 | h2
      · exact absurd h2 hnotin
      · exact h2
  · rw [alLookup_insert_ne _ _ _ _ hheadne]
    exact commitLoop_dead e.cache _ inv0 (le_refl _)
      (alLookup_erase_self _ _ hwf.frags_sorted)
  · intro d i s hmem
    have hi : i < e.album.fragment_head := horig d i s hmem
    have hine : i ≠ st.head + 1 :=
      Nat.ne_of_lt (Nat.lt_of_lt_of_le hi (hhead.trans (Nat.le_succ _)))
    rw [alLookup_insert_ne _ _ _ _ hine]
    exact commitLoop_kills e.cache _ inv0
      (fun d' i' s' h' => Nat.le_of_lt (horig d' i' s' h')) d i s hmem
  · exact ⟨st.top, alLookup_insert_self _ _ _⟩
  · intro p hp htop
    rcases mem_alInsert _ _ _ hp with h | h
    · subst h
      rfl
    · have hsec := inv.no_top p h
      cases hfr : p.2 with
      | sec s2 =>
        rw [hfr] at htop
        exact absurd htop (by simp [Fragment.isTop])
      | top t2 =>
        rw [hfr] at hsec
        exact absurd hsec (by simp [Fragment.isSec])

/-- C2 witness: the staged removal on `c2Engine` — hypotheses checked by
evaluation, conclusion by the theorem. -/
theorem c2_commit_fresh_ids_witness :
    (WF c2Engine.album c2Engine.top c2Engine.fragments
      ∧ c2Engine.cache ≠ []
      ∧ (∀ d i s, (d, (some i, s)) ∈ c2Engine.cache → i < c2Engine.album.fragment_head))
    ∧ (c2Engine.album.fragment_head < (c2Engine.commit 7).1.fragment_head
      ∧ (∀ p ∈ (c2Engine.commit 7).2, p.1 ∉ c2Engine.fragments.map Prod.fst →
          c2Engine.album.fragment_head < p.1)
      ∧ alLookup c2Engine.album.fragment_head (c2Engine.commit 7).2 = none
      ∧ (∀ d i s, (d, (some i, s)) ∈ c2Engine.cache →
          alLookup i (c2Engine.commit 7).2 = none)
      ∧ (∃ t', alLookup (c2Engine.commit 7).1.fragment_head (c2Engine.commit 7).2
          = some (.top t'))
      ∧ (∀ p ∈ (c2Engine.commit 7).2, p.2.isTop = true →
          p.1 = (c2Engine.commit 7).1.fragment_head)) := by
  have hwf : WF c2Engine.album c2Engine.top c2Engine.fragments := by
    constructor <;> decide
  have horig : ∀ d i s, (d, (some i, s)) ∈ c2Engine.cache →
      i < c2Engine.album.fragment_head := by
    intro d i s h
    simp only [c2Engine, List.mem_singleton, Prod.mk.injEq, Option.some.injEq] at h
    obtain ⟨-, hi, -⟩ := h
    subst hi
    decide
  exact ⟨⟨hwf, by decide, horig⟩, c2_commit_fresh_ids c2Engine 7 hwf (by decide) horig⟩

/-! ## Towards C5: keys determine the date range -/

theorem extremes_eq_of_keys (t t' : TopL) (h : t.map Prod.fst = t'.map Prod.fst) :
    extremes t = extremes t' := by
  have h1 : t.head?.map Prod.fst = t'.head?.map Prod.fst := by
    rw [← List.head?_map, h, List.head?_map]
  have h2 : t.getLast?.map Prod.fst = t'.getLast?.map Prod.fst := by
    rw [← List.getLast?_map, h, List.getLast?_map]
  unfold extremes
  rcases ha : t.head? with _ | mn <;> rcases hb : t'.head? with _ | mn' <;>
    rcases hc : t.getLast? with _ | mx <;> rcases hd : t'.getLast? with _ | mx' <;>
      simp_all

/-- C5 counterexample: the claim quantifies over every album state; on
`c1Album`, which already contains the file, committing the add and then
the remove ends with `length = 0` while the pre-Add state has
`length = 1` — the add overwrites the existing entry and the remove
deletes it, so the album is NOT identical to its pre-Add state. -/
theorem c5_add_remove_existing_file :
    c1Album.length = 1 ∧ (c5Run.map fun p => p.1.length) = some 0 :=
  ⟨by decide, by decide⟩

/-! ## Closed forms of the engine steps on a freshly opened engine -/

theorem Engine_new_top (album : Album) (frags : FragTree) (t : TopL)
    (h : alLookup album.fragment_head frags = some (.top t)) :
    Engine.new album frags = some ⟨album, frags, [], t⟩ := by
  unfold Engine.new
  rw [h]

theorem modifySection_empty_cache_hit (e : Engine) (ts : Int) (f : SectionL → SectionL)
    (det : SectionDetails) (s : SectionL)
    (hc : e.cache = [])
    (ht : alLookup (e.album.description.time_zone.midnight ts) e.top = some det)
    (hs : secAt e.fragments det.fragment_id = some s) :
    e.modifySection ts f
      = some { e with cache := [(e.album.description.time_zone.midnight ts,
          (some det.fragment_id, f s))] } := by
  unfold Engine.modifySection Engine.readSec
  rw [hc]
  simp only [alLookup, ht, hs, alInsert]

theorem modifySection_empty_cache_new (e : Engine) (ts : Int) (f : SectionL → SectionL)
    (hc : e.cache = [])
    (ht : alLookup (e.album.description.time_zone.midnight ts) e.top = none) :
    e.modifySection ts f
      = some { e with cache := [(e.album.description.time_zone.midnight ts, (none, f []))] } := by
  unfold Engine.modifySection
  rw [hc]
  simp only [alLookup, ht, alInsert]

theorem commit_singleton_pos (e : Engine) (now : Int) (day : Int) (orig : Option Nat)
    (s : SectionL)
    (hc : e.cache = [(day, (orig, s))])
    (hpos : s.length > 0) :
    e.commit now = (
      { e.album with
          fragment_head := e.album.fragment_head + 2
          length := e.album.length + s.length
            - ((alLookup day e.top).map (fun x => x.length)).getD 0
          last_update := now
          date_range := extremes (alInsert day ⟨e.album.fragment_head + 1, s.length⟩ e.top) },
      alInsert (e.album.fragment_head + 2)
        (.top (alInsert day ⟨e.album.fragment_head + 1, s.length⟩ e.top))
        (alInsert (e.album.fragment_head + 1) (.sec s)
          (match orig with
            | some i => alErase i (alErase e.album.fragment_head e.fragments)
            | none => alErase e.album.fragment_head e.fragments))) := by
  unfold Engine.commit
  rw [hc]
  rw [if_neg (by simp)]
  simp only [List.foldl_cons, List.foldl_nil]
  unfold commitStep
  simp only [if_pos hpos]
  rfl

theorem commit_singleton_empty (e : Engine) (now : Int) (day : Int) (orig : Option Nat)
    (hc : e.cache = [(day, (orig, []))]) :
    e.commit now = (
      { e.album with
          fragment_head := e.album.fragment_head + 1
          length := e.album.length + 0
            - ((alLookup day e.top).map (fun x => x.length)).getD 0
          last_update := now
          date_range := extremes (alErase day e.top) },
      alInsert (e.album.fragment_head + 1) (.top (alErase day e.top))
        (match orig with
          | some i => alErase i (alErase e.album.fragment_head e.fragments)
          | none => alErase e.album.fragment_head e.fragments)) := by
  unfold Engine.commit
  rw [hc]
  rw [if_neg (by simp)]
  simp only [List.foldl_cons, List.foldl_nil]
  unfold commitStep
  simp only [List.length_nil, Nat.lt_irrefl, if_neg (Nat.lt_irrefl 0)]
  rfl

/-! ## C5: add-then-remove round trip -/

theorem c5_case_hit (album : Album) (frags : FragTree) (t : TopL)
    (file_id : String) (file : File) (t1 t2 : Int) (det : SectionDetails) (sd : SectionL)
    (hwf : WF album t frags)
    (hcase : alLookup (album.description.time_zone.midnight file.metadata.last_modified) t
      = some det)
    (hs : secAt frags det.fragment_id = some sd)
    (hlen : sd.length = det.length) (hnil : sd ≠ []) (hsorted : alSorted sd)
    (hkey : alLookup (mkKey file.metadata.last_modified file_id) sd = none)
    (ht1 : album.last_update ≤ t1) (ht12 : t1 ≤ t2) :
    ∃ a1 f1 a2 f2,
      addCommit album frags file_id file t1 = some (a1, f1)
      ∧ removeCommit a1 f1 file_id file t2 = some (a2, f2)
      ∧ (∀ day, dayContent a2 f2 day = dayContent album frags day)
      ∧ a2.length = album.length
      ∧ a2.date_range = album.date_range
      ∧ a2.description = album.description
      ∧ album.fragment_head ≤ a1.fragment_head ∧ a1.fragment_head ≤ a2.fragment_head
      ∧ album.last_update ≤ a1.last_update ∧ a1.last_update ≤ a2.last_update := by
  set ts := file.metadata.last_modified with hts
  set d := album.description.time_zone.midnight ts with hd
  set key := mkKey ts file_id with hk
  set sp := alInsert key ⟨file.width, file.height⟩ sd with hsp
  set top1 := alInsert d (⟨album.fragment_head + 1, sp.length⟩ : SectionDetails) t with htop1
  set F1 := alInsert (album.fragment_head + 2) (Fragment.top top1)
      (alInsert (album.fragment_head + 1) (Fragment.sec sp)
        (alErase det.fragment_id (alErase album.fragment_head frags))) with hF1
  set A1 := { album with
      fragment_head := album.fragment_head + 2
      length := album.length + sp.length
        - ((alLookup d t).map (fun x : SectionDetails => x.length)).getD 0
      last_update := t1
      date_range := extremes top1 } with hA1
  set top2 := alInsert d
      (⟨album.fragment_head + 2 + 1, sd.length⟩ : SectionDetails) top1 with htop2
  set F2 := alInsert (album.fragment_head + 2 + 2) (Fragment.top top2)
      (alInsert (album.fragment_head + 2 + 1) (Fragment.sec sd)
        (alErase (album.fragment_head + 1) (alErase (album.fragment_head + 2) F1))) with hF2
  set A2 := { album with
      fragment_head := album.fragment_head + 2 + 2
      length := (album.length + sp.length
          - ((alLookup d t).map (fun x : SectionDetails => x.length)).getD 0) + sd.length
        - ((alLookup d top1).map (fun x : SectionDetails => x.length)).getD 0
      last_update := t2
      date_range := extremes top2 } with hA2
  have hpos : sp.length > 0 := by
    rw [hsp, alInsert_length_of_none key ⟨file.width, file.height⟩ sd hkey]
    omega
  have hpos2 : sd.length > 0 := List.length_pos.mpr hnil
  have hnew1 := Engine_new_top album frags t hwf.top_at_head
  have hadd : Engine.add ⟨album, frags, [], t⟩ file_id file
      = some ⟨album, frags, [(d, (some det.fragment_id, sp))], t⟩ := by
    unfold Engine.add
    exact modifySection_empty_cache_hit ⟨album, frags, [], t⟩ ts
      (alInsert key ⟨file.width, file.height⟩) det sd rfl hcase hs
  have hcommit1 : Engine.commit ⟨album, frags, [(d, (some det.fragment_id, sp))], t⟩ t1
      = (A1, F1) := by
    rw [commit_singleton_pos ⟨album, frags, [(d, (some det.fragment_id, sp))], t⟩ t1 d
      (some det.fragment_id) sp rfl hpos]
  have hstep1 : addCommit album frags file_id file t1 = some (A1, F1) := by
    unfold addCommit
    rw [hnew1]
    simp only [Option.bind_eq_bind, Option.some_bind]
    rw [hadd]
    simp only [Option.some_bind, hcommit1]
    rfl
  have hF1top : alLookup A1.fragment_head F1 = some (Fragment.top top1) := by
    show alLookup (album.fragment_head + 2) F1 = _
    rw [hF1]
    exact alLookup_insert_self _ _ _
  have hnew2 := Engine_new_top A1 F1 top1 hF1top
  have hd2 : alLookup d top1
      = some (⟨album.fragment_head + 1, sp.length⟩ : SectionDetails) := by
    rw [htop1]
    exact alLookup_insert_self _ _ _
  have hsec2 : secAt F1 (album.fragment_head + 1) = some sp := by
    unfold secAt
    rw [hF1, alLookup_insert_ne (album.fragment_head + 2) (album.fragment_head + 1) _ _
      (by omega), alLookup_insert_self]
  have hcancel : alErase key sp = sd := by
    rw [hsp]
    exact alErase_insert_cancel key ⟨file.width, file.height⟩ sd hsorted hkey
  have hremove : Engine.remove ⟨A1, F1, [], top1⟩ file_id file
      = some ⟨A1, F1, [(d, (some (album.fragment_head + 1), sd))], top1⟩ := by
    unfold Engine.remove
    rw [modifySection_empty_cache_hit ⟨A1, F1, [], top1⟩ ts (alErase key)
      ⟨album.fragment_head + 1, sp.length⟩ sp rfl hd2 hsec2]
    rw [hcancel]
  have hcommit2 : Engine.commit
      ⟨A1, F1, [(d, (some (album.fragment_head + 1), sd))], top1⟩ t2 = (A2, F2) := by
    rw [commit_singleton_pos ⟨A1, F1, [(d, (some (album.fragment_head + 1), sd))], top1⟩ t2 d
      (some (album.fragment_head + 1)) sd rfl hpos2]
  have hstep2 : removeCommit A1 F1 file_id file t2 = some (A2, F2) := by
    unfold removeCommit
    rw [hnew2]
    simp only [Option.bind_eq_bind, Option.some_bind]
    rw [hremove]
    simp only [Option.some_bind, hcommit2]
    rfl
  have hprev1 : ((alLookup d t).map (fun x : SectionDetails => x.length)).getD 0 = det.length := by
    rw [hcase]
    rfl
  have hprev2 : ((alLookup d top1).map (fun x : SectionDetails => x.length)).getD 0 = sp.length := by
    rw [hd2]
    rfl
  have hsplen : sp.length = sd.length + 1 := by
    rw [hsp]
    exact alInsert_length_of_none key ⟨file.width, file.height⟩ sd hkey
  have hlenfin : A2.length = album.length := by
    show (album.length + sp.length - ((alLookup d t).map (fun x : SectionDetails => x.length)).getD 0)
        + sd.length - ((alLookup d top1).map (fun x : SectionDetails => x.length)).getD 0 = album.length
    rw [hprev1, hprev2, hsplen, hlen]
    omega
  have hkeys : top2.map Prod.fst = t.map Prod.fst := by
    rw [htop2]
    rw [alInsert_keys_of_mem d _ top1 hd2]
    rw [htop1]
    exact alInsert_keys_of_mem d _ t hcase
  have hdr : A2.date_range = album.date_range := by
    show extremes top2 = album.date_range
    rw [extremes_eq_of_keys top2 t hkeys]
    exact hwf.dr_eq.symm
  have hF1sorted : alSorted F1 := by
    rw [hF1]
    exact alSorted_insert _ _ _ (alSorted_insert _ _ _
      (alSorted_erase _ _ (alSorted_erase _ _ hwf.frags_sorted)))
  have hmemd : (d, det) ∈ t := alLookup_mem d t hcase
  have hdc : ∀ day, dayContent A2 F2 day = dayContent album frags day := by
    intro day
    have htopA2 : alLookup A2.fragment_head F2 = some (Fragment.top top2) := by
      show alLookup (album.fragment_head + 2 + 2) F2 = _
      rw [hF2]
      exact alLookup_insert_self _ _ _
    simp only [dayContent, htopA2, hwf.top_at_head]
    by_cases hday : day = d
    · subst hday
      have h1 : alLookup d top2
          = some (⟨album.fragment_head + 2 + 1, sd.length⟩ : SectionDetails) := by
        rw [htop2]
        exact alLookup_insert_self _ _ _
      rw [h1, hcase]
      simp only [Option.some_bind]
      show secAt F2 (album.fragment_head + 2 + 1) = secAt frags det.fragment_id
      rw [hs]
      unfold secAt
      rw [hF2, alLookup_insert_ne (album.fragment_head + 2 + 2)
        (album.fragment_head + 2 + 1) _ _ (by omega), alLookup_insert_self]
    · have h2 : alLookup day top2 = alLookup day t := by
        rw [htop2, alLookup_insert_ne d day _ top1 hday, htop1,
          alLookup_insert_ne d day _ t hday]
      rw [h2]
      cases hl : alLookup day t with
      | none => rfl
      | some det' =>
        simp only [Option.some_bind]
        have hmem' : (day, det') ∈ t := alLookup_mem day t hl
        have hj : det'.fragment_id < album.fragment_head := hwf.ids_lt _ hmem'
        have hji : det'.fragment_id ≠ det.fragment_id := by
          intro hcon
          have heq := List.inj_on_of_nodup_map hwf.ids_nodup hmem' hmemd hcon
          exact hday (congrArg Prod.fst heq)
        unfold secAt
        rw [hF2]
        rw [alLookup_insert_ne (album.fragment_head + 2 + 2) det'.fragment_id _ _ (by omega)]
        rw [alLookup_insert_ne (album.fragment_head + 2 + 1) det'.fragment_id _ _ (by omega)]
        rw [alLookup_erase_ne (album.fragment_head + 1) det'.fragment_id _
          (alSorted_erase _ _ hF1sorted) (by omega)]
        rw [alLookup_erase_ne (album.fragment_head + 2) det'.fragment_id _ hF1sorted
          (by omega)]
        rw [hF1]
        rw [alLookup_insert_ne (album.fragment_head + 2) det'.fragment_id _ _ (by omega)]
        rw [alLookup_insert_ne (album.fragment_head + 1) det'.fragment_id _ _ (by omega)]
        rw [alLookup_erase_ne det.fragment_id det'.fragment_id _
          (alSorted_erase _ _ hwf.frags_sorted) hji]
        rw [alLookup_erase_ne album.fragment_head det'.fragment_id _ hwf.frags_sorted
          (by omega)]
  refine ⟨A1, F1, A2, F2, hstep1, hstep2, hdc, hlenfin, hdr, rfl, ?_, ?_, ht1, ht12⟩
  · show album.fragment_head ≤ album.fragment_head + 2
    omega
  · show album.fragment_head + 2 ≤ album.fragment_head + 2 + 2
    omega

theorem c5_case_new (album : Album) (frags : FragTree) (t : TopL)
    (file_id : String) (file : File) (t1 t2 : Int)
    (hwf : WF album t frags)
    (hcase : alLookup (album.description.time_zone.midnight file.metadata.last_modified) t
      = none)
    (ht1 : album.last_update ≤ t1) (ht12 : t1 ≤ t2) :
    ∃ a1 f1 a2 f2,
      addCommit album frags file_id file t1 = some (a1, f1)
      ∧ removeCommit a1 f1 file_id file t2 = some (a2, f2)
      ∧ (∀ day, dayContent a2 f2 day = dayContent album frags day)
      ∧ a2.length = album.length
      ∧ a2.date_range = album.date_range
      ∧ a2.description = album.description
      ∧ album.fragment_head ≤ a1.fragment_head ∧ a1.fragment_head ≤ a2.fragment_head
      ∧ album.last_update ≤ a1.last_update ∧ a1.last_update ≤ a2.last_update := by
  set ts := file.metadata.last_modified with hts
  set d := album.description.time_zone.midnight ts with hd
  set key := mkKey ts file_id with hk
  set sp := alInsert key (⟨file.width, file.height⟩ : FileDetails) ([] : SectionL) with hsp
  set top1 := alInsert d (⟨album.fragment_head + 1, sp.length⟩ : SectionDetails) t with htop1
  set F1 := alInsert (album.fragment_head + 2) (Fragment.top top1)
      (alInsert (album.fragment_head + 1) (Fragment.sec sp)
        (alErase album.fragment_head frags)) with hF1
  set A1 := { album with
      fragment_head := album.fragment_head + 2
      length := album.length + sp.length
        - ((alLookup d t).map (fun x : SectionDetails => x.length)).getD 0
      last_update := t1
      date_range := extremes top1 } with hA1
  set F2 := alInsert (album.fragment_head + 2 + 1) (Fragment.top (alErase d top1))
      (alErase (album.fragment_head + 1) (alErase (album.fragment_head + 2) F1)) with hF2
  set A2 := { album with
      fragment_head := album.fragment_head + 2 + 1
      length := (album.length + sp.length
          - ((alLookup d t).map (fun x : SectionDetails => x.length)).getD 0) + 0
        - ((alLookup d top1).map (fun x : SectionDetails => x.length)).getD 0
      last_update := t2
      date_range := extremes (alErase d top1) } with hA2
  have hpos : sp.length > 0 := by
    rw [hsp]
    simp [alInsert]
  have hnew1 := Engine_new_top album frags t hwf.top_at_head
  have hadd : Engine.add ⟨album, frags, [], t⟩ file_id file
      = some ⟨album, frags, [(d, (none, sp))], t⟩ := by
    unfold Engine.add
    exact modifySection_empty_cache_new ⟨album, frags, [], t⟩ ts
      (alInsert key ⟨file.width, file.height⟩) rfl hcase
  have hcommit1 : Engine.commit ⟨album, frags, [(d, (none, sp))], t⟩ t1 = (A1, F1) := by
    rw [commit_singleton_pos ⟨album, frags, [(d, (none, sp))], t⟩ t1 d none sp rfl hpos]
  have hstep1 : addCommit album frags file_id file t1 = some (A1, F1) := by
    unfold addCommit
    rw [hnew1]
    simp only [Option.bind_eq_bind, Option.some_bind]
    rw [hadd]
    simp only [Option.some_bind, hcommit1]
    rfl
  have hF1top : alLookup A1.fragment_head F1 = some (Fragment.top top1) := by
    show alLookup (album.fragment_head + 2) F1 = _
    rw [hF1]
    exact alLookup_insert_self _ _ _
  have hnew2 := Engine_new_top A1 F1 top1 hF1top
  have hd2 : alLookup d top1
      = some (⟨album.fragment_head + 1, sp.length⟩ : SectionDetails) := by
    rw [htop1]
    exact alLookup_insert_self _ _ _
  have hsec2 : secAt F1 (album.fragment_head + 1) = some sp := by
    unfold secAt
    rw [hF1, alLookup_insert_ne (album.fragment_head + 2) (album.fragment_head + 1) _ _
      (by omega), alLookup_insert_self]
  have hcancel : alErase key sp = [] := by
    rw [hsp]
    exact alErase_insert_cancel key (⟨file.width, file.height⟩ : FileDetails) ([] : SectionL)
      (by simp [alSorted]) (by simp [alLookup])
  have hremove : Engine.remove ⟨A1, F1, [], top1⟩ file_id file
      = some ⟨A1, F1, [(d, (some (album.fragment_head + 1), []))], top1⟩ := by
    unfold Engine.remove
    rw [modifySection_empty_cache_hit ⟨A1, F1, [], top1⟩ ts (alErase key)
      ⟨album.fragment_head + 1, sp.length⟩ sp rfl hd2 hsec2]
    rw [hcancel]
  have hcommit2 : Engine.commit
      ⟨A1, F1, [(d, (some (album.fragment_head + 1), []))], top1⟩ t2 = (A2, F2) := by
    rw [commit_singleton_empty ⟨A1, F1, [(d, (some (album.fragment_head + 1), []))], top1⟩ t2
      d (some (album.fragment_head + 1)) rfl]
  have hstep2 : removeCommit A1 F1 file_id file t2 = some (A2, F2) := by
    unfold removeCommit
    rw [hnew2]
    simp only [Option.bind_eq_bind, Option.some_bind]
    rw [hremove]
    simp only [Option.some_bind, hcommit2]
    rfl
  have htop2B : alErase d top1 = t := by
    rw [htop1]
    exact alErase_insert_cancel d _ t hwf.top_sorted hcase
  have hprev1 : ((alLookup d t).map (fun x : SectionDetails => x.length)).getD 0 = 0 := by
    rw [hcase]
    rfl
  have hprev2 : ((alLookup d top1).map (fun x : SectionDetails => x.length)).getD 0
      = sp.length := by
    rw [hd2]
    rfl
  have hsplen : sp.length = 1 := by
    rw [hsp]
    simp [alInsert]
  have hlenfin : A2.length = album.length := by
    show (album.length + sp.length
        - ((alLookup d t).map (fun x : SectionDetails => x.length)).getD 0) + 0
      - ((alLookup d top1).map (fun x : SectionDetails => x.length)).getD 0 = album.length
    rw [hprev1, hprev2, hsplen]
    omega
  have hdr : A2.date_range = album.date_range := by
    show extremes (alErase d top1) = album.date_range
    rw [htop2B]
    exact hwf.dr_eq.symm
  have hF1sorted : alSorted F1 := by
    rw [hF1]
    exact alSorted_insert _ _ _ (alSorted_insert _ _ _
      (alSorted_erase _ _ hwf.frags_sorted))
  have hdc : ∀ day, dayContent A2 F2 day = dayContent album frags day := by
    intro day
    have htopA2 : alLookup A2.fragment_head F2 = some (Fragment.top (alErase d top1)) := by
      show alLookup (album.fragment_head + 2 + 1) F2 = _
      rw [hF2]
      exact alLookup_insert_self _ _ _
    simp only [dayContent, htopA2, hwf.top_at_head, htop2B]
    cases hl : alLookup day t with
    | none => rfl
    | some det' =>
      simp only [Option.some_bind]
      have hmem' : (day, det') ∈ t := alLookup_mem day t hl
      have hj : det'.fragment_id < album.fragment_head := hwf.ids_lt _ hmem'
      unfold secAt
      rw [hF2]
      rw [alLookup_insert_ne (album.fragment_head + 2 + 1) det'.fragment_id _ _ (by omega)]
      rw [alLookup_erase_ne (album.fragment_head + 1) det'.fragment_id _
        (alSorted_erase _ _ hF1sorted) (by omega)]
      rw [alLookup_erase_ne (album.fragment_head + 2) det'.fragment_id _ hF1sorted
        (by omega)]
      rw [hF1]
      rw [alLookup_insert_ne (album.fragment_head + 2) det'.fragment_id _ _ (by omega)]
      rw [alLookup_insert_ne (album.fragment_head + 1) det'.fragment_id _ _ (by omega)]
      rw [alLookup_erase_ne album.fragment_head det'.fragment_id _ hwf.frags_sorted
        (by omega)]
  refine ⟨A1, F1, A2, F2, hstep1, hstep2, hdc, hlenfin, hdr, rfl, ?_, ?_, ht1, ht12⟩
  · show album.fragment_head ≤ album.fragment_head + 2
    omega
  · show album.fragment_head + 2 ≤ album.fragment_head + 2 + 1
    omega

/-- C5 (amended): provided the file is not already present in the album
— the section of its bucketed day, if any, lacks its key — committing an
add of the file and then a remove of the same file yields an album whose
day-indexed section contents, length and date_range equal the pre-Add
state and whose description is unchanged, while fragment_head and
last_update are monotonically non-decreasing across the two commits
(last_update under a monotone clock). -/
theorem c5_add_remove_roundtrip (album : Album) (frags : FragTree) (t : TopL)
    (file_id : String) (file : File) (t1 t2 : Int)
    (hwf : WF album t frags)
    (hfree : ∀ s, dayContent album frags
        (album.description.time_zone.midnight file.metadata.last_modified) = some s →
        alLookup (mkKey file.metadata.last_modified file_id) s = none)
    (ht1 : album.last_update ≤ t1) (ht12 : t1 ≤ t2) :
    ∃ a1 f1 a2 f2,
      addCommit album frags file_id file t1 = some (a1, f1)
      ∧ removeCommit a1 f1 file_id file t2 = some (a2, f2)
      ∧ (∀ day, dayContent a2 f2 day = dayContent album frags day)
      ∧ a2.length = album.length
      ∧ a2.date_range = album.date_range
      ∧ a2.description = album.description
      ∧ album.fragment_head ≤ a1.fragment_head ∧ a1.fragment_head ≤ a2.fragment_head
      ∧ album.last_update ≤ a1.last_update ∧ a1.last_update ≤ a2.last_update := by
  cases hcase : alLookup
      (album.description.time_zone.midnight file.metadata.last_modified) t with
  | none => exact c5_case_new album frags t file_id file t1 t2 hwf hcase ht1 ht12
  | some det =>
    have hmem := alLookup_mem _ t hcase
    have hsecok := hwf.secs_ok _ hmem
    cases hs : secAt frags det.fragment_id with
    | none =>
      exfalso
      simp only [SecEntryOK, hs] at hsecok
    | some sd =>
      simp only [SecEntryOK, hs] at hsecok
      obtain ⟨hlen, hne, hsorted⟩ := hsecok
      have hdcs : dayContent album frags
          (album.description.time_zone.midnight file.metadata.last_modified)
          = some sd := by
        simp only [dayContent, hwf.top_at_head, hcase, Option.some_bind]
        exact hs
      exact c5_case_hit album frags t file_id file t1 t2 det sd hwf hcase hs hlen hne
        hsorted (hfree sd hdcs) ht1 ht12

/-- C5 witness: adding and removing a fresh file `f1` on the one-file
album `c1Album`. -/
theorem c5_add_remove_roundtrip_witness :
    (WF c1Album [(-19800, ⟨1, 1⟩)] c1Frags
      ∧ (∀ s, dayContent c1Album c1Frags
            (c1Album.description.time_zone.midnight 0) = some s →
          alLookup (mkKey 0 "f1") s = none)
      ∧ c1Album.last_update ≤ 10 ∧ (10 : Int) ≤ 20)
    ∧ (∃ a1 f1 a2 f2,
        addCommit c1Album c1Frags "f1" ⟨"u0", 50, 51, ⟨0, "nm", "*/*"⟩⟩ 10 = some (a1, f1)
        ∧ removeCommit a1 f1 "f1" ⟨"u0", 50, 51, ⟨0, "nm", "*/*"⟩⟩ 20 = some (a2, f2)
        ∧ (∀ day, dayContent a2 f2 day = dayContent c1Album c1Frags day)
        ∧ a2.length = c1Album.length
        ∧ a2.date_range = c1Album.date_range
        ∧ a2.description = c1Album.description
        ∧ c1Album.fragment_head ≤ a1.fragment_head ∧ a1.fragment_head ≤ a2.fragment_head
        ∧ c1Album.last_update ≤ a1.last_update ∧ a1.last_update ≤ a2.last_update) := by
  have hwf : WF c1Album [(-19800, ⟨1, 1⟩)] c1Frags := by
    constructor <;> decide
  have hfree : ∀ s, dayContent c1Album c1Frags
      (c1Album.description.time_zone.midnight 0) = some s →
      alLookup (mkKey 0 "f1") s = none := by
    intro s hs
    have h0 : dayContent c1Album c1Frags (c1Album.description.time_zone.midnight 0)
        = some [(mkKey 0 "f0", ⟨40, 41⟩)] := by decide
    rw [h0, Option.some_inj] at hs
    subst hs
    decide
  exact ⟨⟨hwf, hfree, by decide, by decide⟩,
    c5_add_remove_roundtrip c1Album c1Frags [(-19800, ⟨1, 1⟩)] "f1"
      ⟨"u0", 50, 51, ⟨0, "nm", "*/*"⟩⟩ 10 20 hwf hfree (by decide) (by decide)⟩
